import Mathlib

/-!
Verification of the `frond` stacked-branch CLI: a shallow embedding of the
dependency-graph engine (`internal/dag`), the sync orchestrator
(`cmd/sync.go`), untracking (`cmd/untrack.go`) and the state store's lock
(`internal/state`), together with proofs and refutations of the frozen
claims about the natural-language specification.

Go maps are modelled as association lists `List (String × _)`; Go's
unspecified map-iteration order is modelled by an explicit order parameter
wherever the order is observable.  Go slices `[]string` are modelled as
`Option (List String)` where `none` is the nil slice, which `encoding/json`
serializes as `null` while a non-nil empty slice serializes as `[]`.
-/

namespace Frond

/-! ## String sorting (models Go's `slices.Sort` on `[]string`) -/

/-- Lexicographic comparison of character lists by code point; this is
exactly Go's byte-wise string order (UTF-8 byte order coincides with
code-point order).  Written over `List Char` so the kernel can evaluate
it (the built-in `String.le` decision procedure does not reduce). -/
def strListLe : List Char → List Char → Bool
  | [], _ => true
  | _ :: _, [] => false
  | a :: as, b :: bs =>
    if a.toNat < b.toNat then true
    else if b.toNat < a.toNat then false
    else strListLe as bs

/-- Go's string `<=` (lexicographic byte order). -/
def strLe (a b : String) : Bool := strListLe a.data b.data

theorem strListLe_total (as bs : List Char) :
    strListLe as bs = true ∨ strListLe bs as = true := by
  induction as generalizing bs with
  | nil => left; rfl
  | cons a as ih =>
    cases bs with
    | nil => right; rfl
    | cons b bs =>
      rcases Nat.lt_trichotomy a.toNat b.toNat with h | h | h
      · left
        simp [strListLe, h]
      · have h1 : ¬ a.toNat < b.toNat := by omega
        have h2 : ¬ b.toNat < a.toNat := by omega
        rcases ih bs with ht | ht
        · left
          simp [strListLe, h1, h2, ht]
        · right
          simp [strListLe, h1, h2, ht]
      · right
        simp [strListLe, h]

theorem strLe_total (a b : String) :
    strLe a b = true ∨ strLe b a = true := strListLe_total a.data b.data

theorem strListLe_trans {as bs cs : List Char}
    (h1 : strListLe as bs = true) (h2 : strListLe bs cs = true) :
    strListLe as cs = true := by
  induction as generalizing bs cs with
  | nil => rfl
  | cons a as ih =>
    cases bs with
    | nil => simp [strListLe] at h1
    | cons b bs =>
      cases cs with
      | nil => simp [strListLe] at h2
      | cons c cs =>
        simp only [strListLe] at h1 h2 ⊢
        by_cases hab : a.toNat < b.toNat
        · by_cases hbc : b.toNat < c.toNat
          · have : a.toNat < c.toNat := by omega
            simp [this]
          · by_cases hcb : c.toNat < b.toNat
            · rw [if_neg hbc, if_pos hcb] at h2
              simp at h2
            · have : a.toNat < c.toNat := by omega
              simp [this]
        · by_cases hba : b.toNat < a.toNat
          · rw [if_neg hab, if_pos hba] at h1
            simp at h1
          · have hab' : a.toNat = b.toNat := by omega
            by_cases hbc : b.toNat < c.toNat
            · have : a.toNat < c.toNat := by omega
              simp [this]
            · by_cases hcb : c.toNat < b.toNat
              · rw [if_neg hbc, if_pos hcb] at h2
                simp at h2
              · have g1 : ¬ a.toNat < c.toNat := by omega
                have g2 : ¬ c.toNat < a.toNat := by omega
                rw [if_neg hab, if_neg hba] at h1
                rw [if_neg hbc, if_neg hcb] at h2
                rw [if_neg g1, if_neg g2]
                exact ih h1 h2

theorem strLe_trans {a b c : String} (h1 : strLe a b = true)
    (h2 : strLe b c = true) : strLe a c = true :=
  strListLe_trans h1 h2

/-- Insert a string into a (sorted) list, keeping `strLe` order. -/
def insertStr (a : String) : List String → List String
  | [] => [a]
  | b :: l => if strLe a b then a :: b :: l else b :: insertStr a l

/-- Insertion sort on strings; models `slices.Sort` for `[]string`
(lexicographic byte order). -/
def sortStrs : List String → List String
  | [] => []
  | a :: l => insertStr a (sortStrs l)

theorem insertStr_perm (a : String) (l : List String) :
    List.Perm (insertStr a l) (a :: l) := by
  induction l with
  | nil => simp [insertStr]
  | cons b t ih =>
    simp only [insertStr]
    split
    · exact List.Perm.refl _
    · exact List.Perm.trans (ih.cons b) (List.Perm.swap a b t)

theorem sortStrs_perm (l : List String) : List.Perm (sortStrs l) l := by
  induction l with
  | nil => simp [sortStrs]
  | cons a t ih =>
    exact List.Perm.trans (insertStr_perm a (sortStrs t)) (ih.cons a)

theorem mem_sortStrs {a : String} {l : List String} :
    a ∈ sortStrs l ↔ a ∈ l := (sortStrs_perm l).mem_iff

theorem sortStrs_nodup {l : List String} (h : l.Nodup) :
    (sortStrs l).Nodup := (sortStrs_perm l).nodup_iff.mpr h

theorem insertStr_sorted {a : String} {l : List String}
    (h : l.Sorted (fun x y => strLe x y = true)) :
    (insertStr a l).Sorted (fun x y => strLe x y = true) := by
  induction l with
  | nil => simp [insertStr]
  | cons b t ih =>
    simp only [insertStr]
    split
    · rename_i hab
      refine List.sorted_cons.mpr ⟨?_, h⟩
      intro x hx
      rcases List.mem_cons.mp hx with hx | hx
      · exact hx ▸ hab
      · exact strLe_trans hab ((List.sorted_cons.mp h).1 x hx)
    · rename_i hab
      have hba : strLe b a = true := by
        rcases strLe_total a b with ht | ht
        · exact absurd ht hab
        · exact ht
      have ht := (List.sorted_cons.mp h).2
      refine List.sorted_cons.mpr ⟨?_, ih ht⟩
      intro x hx
      have hx' : x ∈ a :: t := (insertStr_perm a t).mem_iff.mp hx
      rcases List.mem_cons.mp hx' with hy | hy
      · exact hy ▸ hba
      · exact (List.sorted_cons.mp h).1 x hy

theorem sortStrs_sorted (l : List String) :
    (sortStrs l).Sorted (fun x y => strLe x y = true) := by
  induction l with
  | nil => simp [sortStrs]
  | cons a t ih => exact insertStr_sorted ih

/-! ## Data model (`internal/state`) -/

/-- `state.Branch`: metadata for a tracked branch.  `after` is a Go
`[]string` (`none` = nil slice), `pr` is a Go `*int`. -/
structure Branch where
  parent : String
  after : Option (List String)
  pr : Option Int
  deriving DecidableEq, Repr

/-- The `branches` field of `state.State`: a Go `map[string]state.Branch`,
modelled as an association list with unique keys. -/
abbrev BMap := List (String × Branch)

/-- The keys of an association-list map. -/
def keysOf {β : Type} (m : List (String × β)) : List String := m.map Prod.fst

/-- Map lookup (`m[k]` / `m[k], ok` in Go). -/
def lookupB {β : Type} (m : List (String × β)) (k : String) : Option β :=
  match m with
  | [] => none
  | e :: t => if e.1 = k then some e.2 else lookupB t k

theorem lookupB_isSome_iff {β : Type} (m : List (String × β)) (k : String) :
    (lookupB m k).isSome = true ↔ k ∈ keysOf m := by
  induction m with
  | nil => simp [lookupB, keysOf]
  | cons e t ih =>
    simp only [lookupB, keysOf, List.map_cons, List.mem_cons]
    split
    · rename_i h; simp [h.symm]
    · rename_i h
      rw [ih]
      constructor
      · intro hk; exact Or.inr hk
      · rintro (hk | hk)
        · exact absurd hk.symm h
        · exact hk

theorem lookupB_eq_none {β : Type} {m : List (String × β)} {k : String}
    (h : k ∉ keysOf m) : lookupB m k = none := by
  cases hl : lookupB m k with
  | none => rfl
  | some v =>
    exfalso
    exact h ((lookupB_isSome_iff m k).mp (by simp [hl]))

theorem lookupB_of_mem {β : Type} {m : List (String × β)} {k : String}
    {v : β} (hnd : (keysOf m).Nodup) (hmem : (k, v) ∈ m) :
    lookupB m k = some v := by
  induction m with
  | nil => simp at hmem
  | cons e t ih =>
    simp only [keysOf, List.map_cons, List.nodup_cons] at hnd
    rcases List.mem_cons.mp hmem with hmem | hmem
    · simp [lookupB, hmem.symm]
    · have hk : k ∈ keysOf t := List.mem_map_of_mem Prod.fst hmem
      have hne : e.1 ≠ k := by
        intro h; exact hnd.1 (h ▸ hk)
      simp only [lookupB, if_neg hne]
      exact ih hnd.2 hmem

/-! ## Dependency graph engine (`internal/dag`) -/

/-- `dag.BranchInfo`: the projection of a branch used by graph operations.
`after` is read by iteration only, so the nil/empty slice distinction is
dropped here (as `stateToDag` copies the same slice header). -/
structure BranchInfo where
  parent : String
  after : List String
  deriving DecidableEq, Repr

/-- `dag.ReadinessInfo`. -/
structure ReadinessInfo where
  name : String
  ready : Bool
  blockedBy : List String
  deriving DecidableEq, Repr

/-- A `map[string]dag.BranchInfo`. -/
abbrev DMap := List (String × BranchInfo)

/-- The `after` list of a branch, via map indexing (`branches[name]`;
Go's zero value for a missing key has an empty `After`). -/
def afterOf (bs : DMap) (n : String) : List String :=
  ((lookupB bs n).getD ⟨"", []⟩).after

/-- The loop body of `ComputeReadiness`: walk the `after` list, flip
`ready` to false and append to `blockedBy` for every dependency that is
still a key of the map. -/
def readinessFold (bs : DMap) (after : List String) :
    Bool × List String :=
  after.foldl
    (fun p dep =>
      if (lookupB bs dep).isSome then (false, p.2 ++ [dep]) else p)
    (true, [])

/-- `dag.ComputeReadiness`: one entry per branch, names sorted
lexicographically; `blockedBy` is sorted before being returned (the Go
code skips the sort when `BlockedBy` is nil). -/
def ComputeReadiness (bs : DMap) : List ReadinessInfo :=
  (sortStrs (keysOf bs)).map (fun n =>
    let st := readinessFold bs (afterOf bs n)
    { name := n
      ready := st.1
      blockedBy := if st.2.isEmpty then st.2 else sortStrs st.2 })

theorem readinessFold_aux (bs : DMap) (after : List String)
    (b : Bool) (acc : List String) :
    after.foldl
        (fun p dep =>
          if (lookupB bs dep).isSome then (false, p.2 ++ [dep]) else p)
        (b, acc) =
      ((b && (after.filter (fun d => (lookupB bs d).isSome)).isEmpty),
        acc ++ after.filter (fun d => (lookupB bs d).isSome)) := by
  induction after generalizing b acc with
  | nil => simp
  | cons d t ih =>
    simp only [List.foldl_cons, List.filter_cons]
    by_cases hd : (lookupB bs d).isSome
    · simp only [if_pos hd, hd]
      rw [ih]
      simp
    · have hd' : (lookupB bs d).isSome = false := by
        simpa using hd
      simp only [hd']
      rw [if_neg (by simp [hd']), ih]
      simp

theorem readinessFold_eq (bs : DMap) (after : List String) :
    readinessFold bs after =
      ((after.filter (fun d => (lookupB bs d).isSome)).isEmpty,
        after.filter (fun d => (lookupB bs d).isSome)) := by
  rw [readinessFold, readinessFold_aux]
  simp

theorem sortStrs_eq_nil_iff {l : List String} :
    sortStrs l = [] ↔ l = [] := by
  constructor
  · intro h
    have := sortStrs_perm l
    rw [h] at this
    exact (List.Perm.nil_eq this).symm
  · intro h; simp [h, sortStrs]

/-- **C6.** For every branch map, `ComputeReadiness` returns one entry per
key in lexicographic name order; each entry's `blockedBy` is exactly the
sorted sub-list of that branch's `after` entries that are still keys of
the map, and `ready` is true iff that sub-list is empty.  The function is
a pure function of its input, so calling it twice yields identical output
and the input is left unchanged. -/
theorem computeReadiness_spec (bs : DMap) :
    ((ComputeReadiness bs).map (fun ri => ri.name) = sortStrs (keysOf bs))
    ∧ (∀ ri ∈ ComputeReadiness bs,
        ri.blockedBy =
          sortStrs ((afterOf bs ri.name).filter (fun d => d ∈ keysOf bs))
        ∧ (ri.ready = true ↔ ri.blockedBy = []))
    ∧ ComputeReadiness bs = ComputeReadiness bs := by
  have hfilter : ∀ n : String,
      (afterOf bs n).filter (fun d => (lookupB bs d).isSome) =
        (afterOf bs n).filter (fun d => d ∈ keysOf bs) := by
    intro n
    apply List.filter_congr
    intro d _
    by_cases hd : d ∈ keysOf bs
    · simp [hd, (lookupB_isSome_iff bs d).mpr hd]
    · simp only [hd, decide_False]
      have : lookupB bs d = none := lookupB_eq_none hd
      simp [this]
  refine ⟨?_, ?_, rfl⟩
  · rw [ComputeReadiness, List.map_map]
    generalize sortStrs (keysOf bs) = l
    induction l with
    | nil => rfl
    | cons a t ih => simpa using ih
  · intro ri hri
    rw [ComputeReadiness, List.mem_map] at hri
    obtain ⟨n, _, hn⟩ := hri
    subst hn
    simp only [readinessFold_eq]
    by_cases he :
        ((afterOf bs n).filter
          (fun d => (lookupB bs d).isSome)).isEmpty = true
    · have hnil : (afterOf bs n).filter
          (fun d => (lookupB bs d).isSome) = [] := List.isEmpty_iff.mp he
      rw [← hfilter n, hnil]
      simp [sortStrs]
    · have hne : (afterOf bs n).filter
          (fun d => (lookupB bs d).isSome) ≠ [] := by
        intro h
        exact he (by simp [h])
      rw [if_neg he, ← hfilter n]
      refine ⟨rfl, ?_, ?_⟩
      · intro h
        exact absurd (List.isEmpty_iff.mp h) hne
      · intro h
        exact absurd (sortStrs_eq_nil_iff.mp h) hne

/-! ## Cycle detection (`dag.DetectCycle`)

Iterative/recursive three-colour DFS.  White = 0, gray = 1, black = 2.
The Go recursion is modelled with a depth fuel; the callers pass the
number of graph nodes, which bounds the depth of any chain of white
discoveries, so the fuel never runs out on the inputs the program uses. -/

/-- Mutable DFS state: the `color` and `parent` maps (Go map reads of a
missing key give the zero value, hence total functions). -/
structure DfsSt where
  color : String → Nat
  parent : String → String

/-- Set a node's colour to gray (1). -/
def grayC (n : String) (st : DfsSt) : DfsSt :=
  { st with color := fun x => if x = n then 1 else st.color x }

/-- Set a node's colour to black (2). -/
def blackC (n : String) (st : DfsSt) : DfsSt :=
  { st with color := fun x => if x = n then 2 else st.color x }

/-- Record the DFS parent of `d` as `n`. -/
def setPar (d n : String) (st : DfsSt) : DfsSt :=
  { st with parent := fun x => if x = d then n else st.parent x }

/-- The `for cur != dep` walk up the DFS parent chain collecting the
cycle members (`cyclePath = append(cyclePath, cur)`). -/
def buildPath (par : String → String) (fuel : Nat) (cur dep : String)
    (acc : List String) : List String :=
  if cur = dep then acc
  else
    match fuel with
    | 0 => acc
    | f + 1 => buildPath par f (par cur) dep (acc ++ [cur])

/-- Cycle-path reconstruction: start at `[dep]`, walk the parent chain
from `node` back to `dep`, append `dep`, and reverse. -/
def cyclePathOf (par : String → String) (fuel : Nat)
    (node dep : String) : List String :=
  (buildPath par fuel node dep [dep] ++ [dep]).reverse

/-- The adjacency function of `DetectCycle`: every branch maps to its
`after` list, and the candidate's entry is overwritten with `newAfter`. -/
def adjOf (bs : DMap) (newName : String) (newAfter : List String) :
    String → List String :=
  fun n =>
    if n = newName then newAfter
    else
      match lookupB bs n with
      | some info => info.after
      | none => []

/-- The node set of `DetectCycle`: keys, the candidate, and every name
referenced from any `after` list, deduplicated and sorted (Go builds a
set and sorts it for deterministic behaviour). -/
def allNodesList (bs : DMap) (newName : String) (newAfter : List String) :
    List String :=
  sortStrs
    ((keysOf bs ++ [newName] ++ newAfter
        ++ bs.flatMap (fun e => e.2.after)).dedup)

/-- The dependency-scan loop of the Go `dfs` closure, from the point
where `node` has been coloured gray: scan `deps`; a gray dependency is a
back-edge (cycle found), a white dependency is discovered (parent
recorded, coloured gray) and visited through `visit` (the recursive call
at one less depth fuel; `none` when the fuel is exhausted, which never
happens for the fuel the program passes), and when the list is exhausted
`node` turns black. -/
def dfsLoop (adj : String → List String) (pf : Nat)
    (visit : Option (DfsSt → String → String → DfsSt × Option (List String))) :
    DfsSt → String → List String → DfsSt × Option (List String)
  | st, node, [] => (blackC node st, none)
  | st, node, dep :: rest =>
    if st.color dep = 1 then
      (st, some (cyclePathOf st.parent pf node dep))
    else if st.color dep = 0 then
      match visit with
      | none => dfsLoop adj pf none st node rest
      | some v =>
        match v st node dep with
        | (st2, some p) => (st2, some p)
        | (st2, none) => dfsLoop adj pf (some v) st2 node rest
    else dfsLoop adj pf visit st node rest

/-- The white-dependency visitor at a given recursion depth: gray the
dependency, record its DFS parent, and scan its adjacency list. -/
def visitFn (adj : String → List String) (pf : Nat) :
    Nat → Option (DfsSt → String → String → DfsSt × Option (List String))
  | 0 => none
  | f + 1 => some (fun st node dep =>
      dfsLoop adj pf (visitFn adj pf f)
        (grayC dep (setPar dep node st)) dep (adj dep))

/-- The body of the Go `dfs` closure for a gray `node` with remaining
dependency list `deps`, at recursion depth `fuel`. -/
def dfsRun (adj : String → List String) (pf : Nat) (fuel : Nat)
    (st : DfsSt) (node : String) (deps : List String) :
    DfsSt × Option (List String) :=
  dfsLoop adj pf (visitFn adj pf fuel) st node deps

/-- The outer loop of `DetectCycle`: visit every node of the sorted node
list that is still white. -/
def detectLoop (adj : String → List String) (pf : Nat) (fuel : Nat) :
    List String → DfsSt → Option (List String)
  | [], _ => none
  | n :: rest, st =>
    if st.color n = 0 then
      match dfsRun adj pf fuel (grayC n st) n (adj n) with
      | (_, some p) => some p
      | (st', none) => detectLoop adj pf fuel rest st'
    else detectLoop adj pf fuel rest st

/-- `dag.DetectCycle`: would adding a node `newName` with dependencies
`newAfter` create a cycle in the `after` graph?  Returns the cycle path
and a flag (`nil, false` when no cycle exists). -/
def DetectCycle (bs : DMap) (newName : String) (newAfter : List String) :
    List String × Bool :=
  let adj := adjOf bs newName newAfter
  let nodes := allNodesList bs newName newAfter
  let st0 : DfsSt := ⟨fun _ => 0, fun _ => ""⟩
  match detectLoop adj nodes.length nodes.length nodes st0 with
  | some p => (p, true)
  | none => ([], false)

/-! ## Topological sort (`dag.TopoSort`), Kahn's algorithm -/

/-- In-map in-degree of a branch: the number of entries of its `after`
list that exist as keys (counted with multiplicity, matching the Go
per-edge increments). -/
def inDeg0 (bs : DMap) (n : String) : Nat :=
  ((afterOf bs n).filter (fun d => (lookupB bs d).isSome)).length

/-- `dependents[dep]`: one occurrence of `name` for every edge
`name -after-> dep` whose target exists in the map.  Go accumulates these
in map-iteration order and sorts before use, so the order here is
irrelevant. -/
def dependentsOf (bs : DMap) (dep : String) : List String :=
  if (lookupB bs dep).isSome then
    bs.flatMap
      (fun e => (e.2.after.filter (fun d => d = dep)).map (fun _ => e.1))
  else []

/-- The sorted dependents list used when a node is dequeued
(`slices.Sort(deps)`). -/
def sortedDependents (bs : DMap) (dep : String) : List String :=
  sortStrs (dependentsOf bs dep)

/-- The initial ready queue: all zero-in-degree keys, sorted
lexicographically for determinism. -/
def seedQueue (bs : DMap) : List String :=
  sortStrs ((keysOf bs).filter (fun n => inDeg0 bs n = 0))

/-- One in-degree decrement (`inDegree[dep]--`), enqueueing `dep` when
its in-degree reaches zero. -/
def decStep (p : (String → Int) × List String) (dep : String) :
    (String → Int) × List String :=
  let d := p.1 dep - 1
  let f : String → Int := fun x => if x = dep then d else p.1 x
  if d = 0 then (f, p.2 ++ [dep]) else (f, p.2)

/-- The dequeue loop of Kahn's algorithm.  The fuel equals the map size;
every name is enqueued at most once (its in-degree passes zero at most
once), so the loop runs at most `|branches|` iterations and the fuel is
never the reason it stops. -/
def kahnLoop (bs : DMap) :
    Nat → List String → (String → Int) → List String → List String
  | _, [], _, result => result
  | 0, _ :: _, _, result => result
  | fuel + 1, node :: rest, inDeg, result =>
    let s := (sortedDependents bs node).foldl decStep (inDeg, [])
    kahnLoop bs fuel (rest ++ s.2) s.1 (result ++ [node])

/-- `dag.TopoSort`: dependency-respecting order of the branch names;
`none` models the "cycle detected in dependency graph" error. -/
def TopoSort (bs : DMap) : Option (List String) :=
  if bs.isEmpty then some []
  else
    let result :=
      kahnLoop bs bs.length (seedQueue bs)
        (fun n => (inDeg0 bs n : Int)) []
    if result.length = bs.length then some result else none

/-! ## Kahn loop invariant machinery -/

/-- Number of in-map dependencies of `x` that have not yet been emitted
into `result` (counted with multiplicity).  This is what `inDegree[x]`
tracks during the dequeue loop. -/
def remaining (bs : DMap) (result : List String) (x : String) : Nat :=
  ((afterOf bs x).filter
    (fun d => (lookupB bs d).isSome && decide (d ∉ result))).length

theorem remaining_nil (bs : DMap) (x : String) :
    remaining bs [] x = inDeg0 bs x := by
  unfold remaining inDeg0
  congr 1
  apply List.filter_congr
  intro d _
  simp

theorem length_filter_le_of_imp {l : List String} {p q : String → Bool}
    (h : ∀ d, q d = true → p d = true) :
    (l.filter q).length ≤ (l.filter p).length := by
  induction l with
  | nil => simp
  | cons d t ih =>
    simp only [List.filter_cons]
    by_cases hq : q d = true
    · rw [if_pos hq, if_pos (h d hq)]
      simpa using ih
    · rw [if_neg hq]
      split
      · exact Nat.le_succ_of_le ih
      · exact ih

theorem length_filter_exclude (l : List String) (node : String)
    (P : String → Bool) (hP : P node = true) :
    (l.filter (fun d => P d && decide (d ≠ node))).length =
        (l.filter P).length - l.count node
      ∧ l.count node ≤ (l.filter P).length := by
  induction l with
  | nil => simp
  | cons d t ih =>
    obtain ⟨ih1, ih2⟩ := ih
    by_cases hd : d = node
    · subst hd
      have hc : (d :: t).count d = t.count d + 1 := by
        simp [List.count_cons]
      have hf1 : (d :: t).filter P = d :: t.filter P := by
        simp [List.filter_cons, hP]
      have hf2 : (d :: t).filter (fun x => P x && decide (x ≠ d)) =
          t.filter (fun x => P x && decide (x ≠ d)) := by
        simp [List.filter_cons]
      rw [hc, hf1, hf2]
      refine ⟨?_, ?_⟩
      · rw [ih1]
        simp only [List.length_cons]
        omega
      · simp only [List.length_cons]
        omega
    · have hc : (d :: t).count node = t.count node := by
        simp [List.count_cons, hd]
      by_cases hPd : P d = true
      · have hf1 : (d :: t).filter P = d :: t.filter P := by
          simp [List.filter_cons, hPd]
        have hf2 : (d :: t).filter (fun x => P x && decide (x ≠ node)) =
            d :: t.filter (fun x => P x && decide (x ≠ node)) := by
          simp [List.filter_cons, hPd, hd]
        rw [hc, hf1, hf2]
        refine ⟨?_, ?_⟩
        · simp only [List.length_cons]
          omega
        · simp only [List.length_cons]
          omega
      · have hPd' : P d = false := by simpa using hPd
        have hf1 : (d :: t).filter P = t.filter P := by
          simp [List.filter_cons, hPd']
        have hf2 : (d :: t).filter (fun x => P x && decide (x ≠ node)) =
            t.filter (fun x => P x && decide (x ≠ node)) := by
          simp [List.filter_cons, hPd']
        rw [hc, hf1, hf2]
        exact ⟨ih1, ih2⟩

theorem remaining_step (bs : DMap) (result : List String) (node : String)
    (hkey : (lookupB bs node).isSome = true) (hnew : node ∉ result) :
    ∀ x, remaining bs (result ++ [node]) x =
          remaining bs result x - (afterOf bs x).count node
      ∧ (afterOf bs x).count node ≤ remaining bs result x := by
  intro x
  have hP : ((lookupB bs node).isSome && decide (node ∉ result)) = true := by
    simp [hkey, hnew]
  have hmain := length_filter_exclude (afterOf bs x) node
    (fun d => (lookupB bs d).isSome && decide (d ∉ result)) hP
  have hconv :
      (afterOf bs x).filter
          (fun d => (lookupB bs d).isSome && decide (d ∉ result ++ [node])) =
        (afterOf bs x).filter
          (fun d => ((lookupB bs d).isSome && decide (d ∉ result))
            && decide (d ≠ node)) := by
    apply List.filter_congr
    intro d _
    by_cases h1 : (lookupB bs d).isSome = true
    · by_cases h2 : d ∈ result
      · simp [h1, h2]
      · by_cases h3 : d = node
        · simp [h1, h2, h3]
        · simp [h1, h2, h3]
    · have h1' : (lookupB bs d).isSome = false := by simpa using h1
      simp [h1']
  constructor
  · rw [remaining, hconv]
    exact hmain.1
  · exact hmain.2

theorem remaining_mono (bs : DMap) (result : List String) (node : String)
    (x : String) :
    remaining bs (result ++ [node]) x ≤ remaining bs result x := by
  apply length_filter_le_of_imp
  intro d hd
  simp only [Bool.and_eq_true, decide_eq_true_eq, List.mem_append,
    List.mem_singleton] at hd ⊢
  exact ⟨hd.1, fun hc => hd.2 (Or.inl hc)⟩

theorem decStep_eta (f : String → Int) (q : List String) (dep : String) :
    decStep (f, q) dep =
      ((fun y => if y = dep then f dep - 1 else f y),
        if f dep = 1 then q ++ [dep] else q) := by
  by_cases h : f dep - 1 = 0
  · have h1 : f dep = 1 := by omega
    simp [decStep, h, h1]
  · have h1 : ¬ f dep = 1 := by omega
    simp [decStep, h, h1]

theorem decFold_fst :
    ∀ (deps : List String) (f : String → Int) (q : List String) (x : String),
      ((deps.foldl decStep (f, q)).1) x = f x - (deps.count x : Int)
  | [], f, q, x => by simp
  | dep :: rest, f, q, x => by
    simp only [List.foldl_cons]
    rw [decStep_eta, decFold_fst rest]
    by_cases hx : x = dep
    · subst hx
      simp only [if_pos rfl, List.count_cons, beq_self_eq_true, if_pos rfl]
      push_cast
      omega
    · have hb : (dep == x) = false := by
        simp [Ne.symm hx]
      simp only [if_neg hx, List.count_cons, hb]
      simp

theorem decFold_mem :
    ∀ (deps : List String) (f : String → Int) (q : List String) (x : String),
      x ∈ (deps.foldl decStep (f, q)).2 ↔
        x ∈ q ∨ (1 ≤ f x ∧ f x ≤ (deps.count x : Int))
  | [], f, q, x => by
    simp only [List.foldl_nil, List.count_nil, Nat.cast_zero]
    constructor
    · exact Or.inl
    · rintro (h | h)
      · exact h
      · omega
  | dep :: rest, f, q, x => by
    simp only [List.foldl_cons]
    rw [decStep_eta, decFold_mem rest]
    by_cases hx : x = dep
    · subst hx
      have hc : ((x :: rest).count x : Int) = (rest.count x : Int) + 1 := by
        simp [List.count_cons]
      rw [hc]
      simp only [if_pos rfl, eq_self_iff_true, if_true]
      by_cases hf : f x = 1
      · rw [if_pos hf, hf]
        constructor
        · rintro (h | h)
          · rcases List.mem_append.mp h with h | h
            · exact Or.inl h
            · refine Or.inr ⟨by omega, ?_⟩
              have : (0 : Int) ≤ (rest.count x : Int) := Int.natCast_nonneg _
              omega
          · exact Or.inr (by omega)
        · rintro (h | h)
          · exact Or.inl (List.mem_append.mpr (Or.inl h))
          · exact Or.inl (List.mem_append.mpr (Or.inr (by simp)))
      · rw [if_neg hf]
        constructor
        · rintro (h | h)
          · exact Or.inl h
          · exact Or.inr (by omega)
        · rintro (h | h)
          · exact Or.inl h
          · exact Or.inr (by omega)
    · have hb : (dep == x) = false := by
        simp [Ne.symm hx]
      have hc : ((dep :: rest).count x : Int) = (rest.count x : Int) := by
        simp [List.count_cons, hb]
      rw [hc]
      simp only [if_neg hx]
      by_cases hf : f dep = 1
      · rw [if_pos hf]
        constructor
        · rintro (h | h)
          · rcases List.mem_append.mp h with h | h
            · exact Or.inl h
            · exact absurd (List.mem_singleton.mp h) hx
          · exact Or.inr h
        · rintro (h | h)
          · exact Or.inl (List.mem_append.mpr (Or.inl h))
          · exact Or.inr h
      · rw [if_neg hf]

theorem decFold_nodup :
    ∀ (deps : List String) (f : String → Int) (q : List String),
      q.Nodup → (∀ x ∈ q, f x ≤ 0) →
      (deps.foldl decStep (f, q)).2.Nodup
  | [], _, _, hq, _ => hq
  | dep :: rest, f, q, hq, hle => by
    simp only [List.foldl_cons]
    rw [decStep_eta]
    by_cases hf : f dep = 1
    · rw [if_pos hf]
      apply decFold_nodup rest
      · have hdq : dep ∉ q := by
          intro hmem
          have := hle dep hmem
          omega
        simp [List.nodup_append, hq, hdq]
      · intro x hx
        rcases List.mem_append.mp hx with hx | hx
        · by_cases hxd : x = dep
          · exfalso
            have h1 := hle x hx
            rw [hxd, hf] at h1
            omega
          · rw [if_neg hxd]
            exact hle x hx
        · have hxd : x = dep := List.mem_singleton.mp hx
          rw [if_pos hxd, hf]
          omega
    · rw [if_neg hf]
      apply decFold_nodup rest
      · exact hq
      · intro x hx
        by_cases hxd : x = dep
        · rw [if_pos hxd]
          have h1 := hle x hx
          rw [hxd] at h1
          omega
        · rw [if_neg hxd]
          exact hle x hx

theorem count_map_const' (l : List String) (y x : String) :
    ((l.map (fun _ => y)).count x) = if y = x then l.length else 0 := by
  induction l with
  | nil => simp
  | cons a t ih =>
    simp only [List.map_cons, List.count_cons, ih]
    by_cases h : y = x
    · simp [h]
    · simp [h]

theorem length_filter_eq_count (l : List String) (node : String) :
    (l.filter (fun d => d = node)).length = l.count node := by
  induction l with
  | nil => simp
  | cons a t ih =>
    simp only [List.filter_cons, List.count_cons]
    by_cases h : a = node
    · simp [h, ih]
    · simp [h, ih]

theorem flat_count (node x : String) :
    ∀ (l : List (String × BranchInfo)), (keysOf l).Nodup →
    (l.flatMap
        (fun e => (e.2.after.filter (fun d => d = node)).map
          (fun _ => e.1))).count x
      = match lookupB l x with
        | some v => v.after.count node
        | none => 0 := by
  intro l
  induction l with
  | nil => intro _; simp [lookupB]
  | cons e t ih =>
    intro hnd
    simp only [keysOf, List.map_cons, List.nodup_cons] at hnd
    simp only [List.flatMap_cons, List.count_append, count_map_const']
    rw [ih hnd.2]
    by_cases hx : e.1 = x
    · have hlt : lookupB t x = none := by
        apply lookupB_eq_none
        intro hc
        exact hnd.1 (hx ▸ hc)
      simp only [lookupB, if_pos hx, hlt, hx, if_pos rfl,
        length_filter_eq_count]
      simp
    · simp only [lookupB, if_neg hx, if_neg hx]
      simp

theorem mem_dependents_keys {bs : DMap} {node x : String}
    (h : x ∈ dependentsOf bs node) : x ∈ keysOf bs := by
  unfold dependentsOf at h
  by_cases hn : (lookupB bs node).isSome
  · rw [if_pos hn] at h
    obtain ⟨e, he, hx⟩ := List.mem_flatMap.mp h
    obtain ⟨d, _, hd⟩ := List.mem_map.mp hx
    exact hd ▸ List.mem_map_of_mem Prod.fst he
  · rw [if_neg hn] at h
    simp at h

theorem sortedDependents_count (bs : DMap) (hnd : (keysOf bs).Nodup)
    (node : String) (hnode : (lookupB bs node).isSome = true) (x : String) :
    (sortedDependents bs node).count x =
      if (lookupB bs x).isSome then (afterOf bs x).count node else 0 := by
  rw [sortedDependents, (sortStrs_perm _).count_eq]
  unfold dependentsOf
  rw [if_pos hnode, flat_count node x bs hnd]
  cases hl : lookupB bs x with
  | none => simp [hl]
  | some v =>
    simp [hl, afterOf]

/-- One `after` edge of the graph restricted to in-map targets: branch
`x` depends on branch `d`, both tracked. -/
def edgeOf (bs : DMap) (x d : String) : Prop :=
  x ∈ keysOf bs ∧ d ∈ keysOf bs ∧ d ∈ afterOf bs x

/-- The in-map `after` graph has no cycle. -/
def Acyclic (bs : DMap) : Prop :=
  ∀ n, ¬ Relation.TransGen (edgeOf bs) n n

theorem exists_cycle_of_succ (bs : DMap) (S : Finset String)
    (hS : S.Nonempty) (hsucc : ∀ x ∈ S, ∃ d, edgeOf bs x d ∧ d ∈ S) :
    ∃ n, Relation.TransGen (edgeOf bs) n n := by
  classical
  obtain ⟨x0, hx0⟩ := hS
  choose g hg1 hg2 using hsucc
  let f : String → String := fun x => if h : x ∈ S then g x h else x
  have hfS : ∀ x, ∀ h : x ∈ S, f x ∈ S ∧ edgeOf bs x (f x) := by
    intro x h
    have : f x = g x h := dif_pos h
    rw [this]
    exact ⟨hg2 x h, hg1 x h⟩
  have hmem : ∀ k, f^[k] x0 ∈ S := by
    intro k
    induction k with
    | zero => simpa using hx0
    | succ n ih =>
      rw [Function.iterate_succ_apply']
      exact (hfS _ ih).1
  have hedge : ∀ k, edgeOf bs (f^[k] x0) (f^[k + 1] x0) := by
    intro k
    rw [Function.iterate_succ_apply']
    exact (hfS _ (hmem k)).2
  have hchain : ∀ i j, i < j →
      Relation.TransGen (edgeOf bs) (f^[i] x0) (f^[j] x0) := by
    intro i j hij
    induction j with
    | zero => omega
    | succ n ih =>
      by_cases hii : i = n
      · subst hii
        exact Relation.TransGen.single (hedge i)
      · have hlt : i < n := by omega
        exact Relation.TransGen.tail (ih hlt) (hedge n)
  have hcard : S.card < (Finset.range (S.card + 1)).card := by simp
  obtain ⟨i, hi, j, hj, hij, heq⟩ :=
    @Finset.exists_ne_map_eq_of_card_lt_of_maps_to Nat String
      (Finset.range (S.card + 1)) S hcard (fun k => f^[k] x0)
      (fun a _ => hmem a)
  rcases lt_or_gt_of_ne hij with hlt | hlt
  · refine ⟨f^[i] x0, ?_⟩
    have h2 := hchain i j hlt
    rwa [← heq] at h2
  · refine ⟨f^[j] x0, ?_⟩
    have h2 := hchain j i hlt
    rwa [heq] at h2

theorem indexOf_append_left {a : String} {l : List String}
    (l2 : List String) (h : a ∈ l) :
    (l ++ l2).indexOf a = l.indexOf a := by
  induction l with
  | nil => simp at h
  | cons b t ih =>
    by_cases hb : b = a
    · simp [List.indexOf_cons, hb]
    · have hb' : (b == a) = false := by simp [hb]
      have ht : a ∈ t := by
        rcases List.mem_cons.mp h with h1 | h1
        · exact absurd h1.symm hb
        · exact h1
      simp [List.indexOf_cons, hb', ih ht]

theorem indexOf_append_self {a : String} {l : List String} (h : a ∉ l) :
    (l ++ [a]).indexOf a = l.length := by
  induction l with
  | nil => simp [List.indexOf_cons]
  | cons b t ih =>
    have hb : b ≠ a := by
      intro hc
      exact h (hc ▸ List.mem_cons_self b t)
    have hb' : (b == a) = false := by simp [hb]
    have ht : a ∉ t := fun hc => h (List.mem_cons_of_mem b hc)
    simp [List.indexOf_cons, hb', ih ht]

/-- The loop invariant of Kahn's dequeue loop. -/
structure KahnInv (bs : DMap) (queue : List String)
    (inDeg : String → Int) (result : List String) : Prop where
  res_nodup : result.Nodup
  q_nodup : queue.Nodup
  q_keys : ∀ x ∈ queue, x ∈ keysOf bs
  q_fresh : ∀ x ∈ queue, x ∉ result
  res_keys : ∀ x ∈ result, x ∈ keysOf bs
  deg_eq : ∀ x ∈ keysOf bs, inDeg x = (remaining bs result x : Int)
  q_zero : ∀ x ∈ queue, remaining bs result x = 0
  blocked_pos : ∀ x ∈ keysOf bs, x ∉ result → x ∉ queue →
    0 < remaining bs result x
  res_zero : ∀ x ∈ result, remaining bs result x = 0
  res_order : ∀ x ∈ result, ∀ d, d ∈ afterOf bs x → d ∈ keysOf bs →
    d ∈ result ∧ result.indexOf d < result.indexOf x

theorem kahnLoop_nil (bs : DMap) (fuel : Nat) (inDeg : String → Int)
    (result : List String) :
    kahnLoop bs fuel [] inDeg result = result := by
  cases fuel <;> rfl

theorem kahn_final (bs : DMap) (_hnd : (keysOf bs).Nodup)
    (hacyc : Acyclic bs) (inDeg : String → Int) (result : List String)
    (inv : KahnInv bs [] inDeg result) :
    result.Nodup ∧ (∀ x ∈ result, x ∈ keysOf bs)
      ∧ (∀ k ∈ keysOf bs, k ∈ result)
      ∧ ∀ x ∈ result, ∀ d, d ∈ afterOf bs x → d ∈ keysOf bs →
          result.indexOf d < result.indexOf x := by
  classical
  have hcomp : ∀ k ∈ keysOf bs, k ∈ result := by
    by_contra hc
    push_neg at hc
    obtain ⟨k, hkK, hkR⟩ := hc
    have hsucc : ∀ x ∈ (keysOf bs).toFinset.filter (fun y => y ∉ result),
        ∃ d, edgeOf bs x d ∧
          d ∈ (keysOf bs).toFinset.filter (fun y => y ∉ result) := by
      intro x hx
      have hx' := Finset.mem_filter.mp hx
      have hxK : x ∈ keysOf bs := List.mem_toFinset.mp hx'.1
      have hxR : x ∉ result := hx'.2
      have hpos : 0 < remaining bs result x :=
        inv.blocked_pos x hxK hxR (by simp)
      obtain ⟨d, hd⟩ := List.exists_mem_of_length_pos hpos
      have hd' := List.mem_filter.mp hd
      have hdaf : d ∈ afterOf bs x := hd'.1
      have hd2 := hd'.2
      simp only [Bool.and_eq_true, decide_eq_true_eq] at hd2
      have hdK : d ∈ keysOf bs := (lookupB_isSome_iff bs d).mp hd2.1
      refine ⟨d, ⟨hxK, hdK, hdaf⟩, ?_⟩
      exact Finset.mem_filter.mpr ⟨List.mem_toFinset.mpr hdK, hd2.2⟩
    have hne : ((keysOf bs).toFinset.filter (fun y => y ∉ result)).Nonempty :=
      ⟨k, Finset.mem_filter.mpr ⟨List.mem_toFinset.mpr hkK, hkR⟩⟩
    obtain ⟨n, hn⟩ := exists_cycle_of_succ bs _ hne hsucc
    exact hacyc n hn
  refine ⟨inv.res_nodup, inv.res_keys, hcomp, ?_⟩
  intro x hx d hdaf hdK
  exact (inv.res_order x hx d hdaf hdK).2

theorem kahn_main (bs : DMap) (hnd : (keysOf bs).Nodup)
    (hacyc : Acyclic bs) :
    ∀ (fuel : Nat) (queue : List String) (inDeg : String → Int)
      (result : List String),
      KahnInv bs queue inDeg result →
      fuel + result.length = bs.length →
      ((kahnLoop bs fuel queue inDeg result).Nodup
        ∧ (∀ x ∈ kahnLoop bs fuel queue inDeg result, x ∈ keysOf bs)
        ∧ (∀ k ∈ keysOf bs, k ∈ kahnLoop bs fuel queue inDeg result)
        ∧ ∀ x ∈ kahnLoop bs fuel queue inDeg result, ∀ d,
            d ∈ afterOf bs x → d ∈ keysOf bs →
            (kahnLoop bs fuel queue inDeg result).indexOf d
              < (kahnLoop bs fuel queue inDeg result).indexOf x) := by
  intro fuel
  induction fuel with
  | zero =>
    intro queue inDeg result inv hfuel
    cases queue with
    | nil =>
      rw [kahnLoop_nil]
      exact kahn_final bs hnd hacyc inDeg result inv
    | cons node rest =>
      exfalso
      have hlen : result.length = bs.length := by omega
      have hsub : result.toFinset ⊆ (keysOf bs).toFinset := by
        intro x hx
        exact List.mem_toFinset.mpr (inv.res_keys x (List.mem_toFinset.mp hx))
      have hklen : (keysOf bs).length = bs.length := by
        simp [keysOf]
      have hcard : (keysOf bs).toFinset.card ≤ result.toFinset.card := by
        rw [List.toFinset_card_of_nodup inv.res_nodup,
          List.toFinset_card_of_nodup hnd, hlen, hklen]
      have heq : result.toFinset = (keysOf bs).toFinset :=
        Finset.eq_of_subset_of_card_le hsub hcard
      have hnodeK : node ∈ keysOf bs := inv.q_keys node (by simp)
      have hnodeR : node ∈ result := by
        have : node ∈ result.toFinset := by
          rw [heq]
          exact List.mem_toFinset.mpr hnodeK
        exact List.mem_toFinset.mp this
      exact inv.q_fresh node (by simp) hnodeR
  | succ fuel ih =>
    intro queue inDeg result inv hfuel
    cases queue with
    | nil =>
      rw [kahnLoop_nil]
      exact kahn_final bs hnd hacyc inDeg result inv
    | cons node rest =>
      have hnodeK : node ∈ keysOf bs := inv.q_keys node (by simp)
      have hnodeSome : (lookupB bs node).isSome = true :=
        (lookupB_isSome_iff bs node).mpr hnodeK
      have hnodeFresh : node ∉ result := inv.q_fresh node (by simp)
      have hnodeZero : remaining bs result node = 0 := inv.q_zero node (by simp)
      have hnodeNotRest : node ∉ rest := by
        have := inv.q_nodup
        rw [List.nodup_cons] at this
        exact this.1
      set deps := sortedDependents bs node with hdeps
      set s := deps.foldl decStep (inDeg, ([] : List String)) with hs
      have hcnt : ∀ x, (deps.count x : Int) =
          if (lookupB bs x).isSome then ((afterOf bs x).count node : Int)
          else 0 := by
        intro x
        rw [hdeps, sortedDependents_count bs hnd node hnodeSome x]
        by_cases hx : (lookupB bs x).isSome
        · rw [if_pos hx, if_pos hx]
        · rw [if_neg hx, if_neg hx]
          rfl
      have hfst : ∀ x, s.1 x = inDeg x - (deps.count x : Int) := by
        intro x
        rw [hs]
        exact decFold_fst deps inDeg [] x
      have hmem : ∀ x, x ∈ s.2 ↔
          (1 ≤ inDeg x ∧ inDeg x ≤ (deps.count x : Int)) := by
        intro x
        rw [hs, decFold_mem deps inDeg [] x]
        simp
      have hqnodup : s.2.Nodup := by
        rw [hs]
        exact decFold_nodup deps inDeg [] (by simp) (by simp)
      have hrem := remaining_step bs result node hnodeSome hnodeFresh
      -- membership in the newly-enqueued list implies being a key
      have hnewK : ∀ x ∈ s.2, x ∈ keysOf bs := by
        intro x hx
        have h1 := (hmem x).mp hx
        have hpos : 0 < (deps.count x : Int) := by omega
        have hposn : 0 < deps.count x := by exact_mod_cast hpos
        have hxdeps : x ∈ deps := List.count_pos_iff.mp hposn
        rw [hdeps, sortedDependents] at hxdeps
        exact mem_dependents_keys (mem_sortStrs.mp hxdeps)
      -- a newly-enqueued name has all deps emitted after adding node
      have hnewZero : ∀ x ∈ s.2, remaining bs (result ++ [node]) x = 0 := by
        intro x hx
        have h1 := (hmem x).mp hx
        have hxK := hnewK x hx
        have hxSome : (lookupB bs x).isSome = true :=
          (lookupB_isSome_iff bs x).mpr hxK
        have hdeg := inv.deg_eq x hxK
        have hcx := hcnt x
        rw [if_pos hxSome] at hcx
        have h2 := (hrem x).1
        have h3 := (hrem x).2
        omega
      -- a newly-enqueued name is not yet emitted and is not node
      have hnewFresh : ∀ x ∈ s.2, x ∉ result ∧ x ≠ node := by
        intro x hx
        have h1 := (hmem x).mp hx
        have hxK := hnewK x hx
        have hdeg := inv.deg_eq x hxK
        constructor
        · intro hxR
          have := inv.res_zero x hxR
          omega
        · intro hxn
          subst hxn
          omega
      have hstep : kahnLoop bs (fuel + 1) (node :: rest) inDeg result =
          kahnLoop bs fuel (rest ++ s.2) s.1 (result ++ [node]) := rfl
      rw [hstep]
      apply ih (rest ++ s.2) s.1 (result ++ [node])
      · constructor
        -- res_nodup
        · have : result.Nodup := inv.res_nodup
          simp [List.nodup_append, this, hnodeFresh]
        -- q_nodup
        · have hrest : rest.Nodup := by
            have := inv.q_nodup
            rw [List.nodup_cons] at this
            exact this.2
          rw [List.nodup_append]
          refine ⟨hrest, hqnodup, ?_⟩
          intro x hxr hxs
          have h1 := (hmem x).mp hxs
          have hxK := inv.q_keys x (List.mem_cons_of_mem node hxr)
          have hz := inv.q_zero x (List.mem_cons_of_mem node hxr)
          have hdeg := inv.deg_eq x hxK
          omega
        -- q_keys
        · intro x hx
          rcases List.mem_append.mp hx with hx | hx
          · exact inv.q_keys x (List.mem_cons_of_mem node hx)
          · exact hnewK x hx
        -- q_fresh
        · intro x hx
          rcases List.mem_append.mp hx with hx | hx
          · intro hc
            rcases List.mem_append.mp hc with hc | hc
            · exact inv.q_fresh x (List.mem_cons_of_mem node hx) hc
            · have hxn : x = node := List.mem_singleton.mp hc
              exact hnodeNotRest (hxn ▸ hx)
          · intro hc
            rcases List.mem_append.mp hc with hc | hc
            · exact (hnewFresh x hx).1 hc
            · exact (hnewFresh x hx).2 (List.mem_singleton.mp hc)
        -- res_keys
        · intro x hx
          rcases List.mem_append.mp hx with hx | hx
          · exact inv.res_keys x hx
          · exact (List.mem_singleton.mp hx) ▸ hnodeK
        -- deg_eq
        · intro x hxK
          have hxSome : (lookupB bs x).isSome = true :=
            (lookupB_isSome_iff bs x).mpr hxK
          have hdeg := inv.deg_eq x hxK
          have hcx := hcnt x
          rw [if_pos hxSome] at hcx
          have h2 := (hrem x).1
          have h3 := (hrem x).2
          rw [hfst x]
          omega
        -- q_zero
        · intro x hx
          rcases List.mem_append.mp hx with hx | hx
          · have hz := inv.q_zero x (List.mem_cons_of_mem node hx)
            have := remaining_mono bs result node x
            omega
          · exact hnewZero x hx
        -- blocked_pos
        · intro x hxK hxR hxQ
          have hxRold : x ∉ result := by
            intro hc
            exact hxR (List.mem_append.mpr (Or.inl hc))
          have hxn : x ≠ node := by
            intro hc
            exact hxR (List.mem_append.mpr (Or.inr (by simp [hc])))
          have hxrest : x ∉ rest := by
            intro hc
            exact hxQ (List.mem_append.mpr (Or.inl hc))
          have hxs2 : x ∉ s.2 := by
            intro hc
            exact hxQ (List.mem_append.mpr (Or.inr hc))
          have hxQold : x ∉ node :: rest := by
            intro hc
            rcases List.mem_cons.mp hc with hc | hc
            · exact hxn hc
            · exact hxrest hc
          have hpos := inv.blocked_pos x hxK hxRold hxQold
          have hxSome : (lookupB bs x).isSome = true :=
            (lookupB_isSome_iff bs x).mpr hxK
          have hdeg := inv.deg_eq x hxK
          have hcx := hcnt x
          rw [if_pos hxSome] at hcx
          have h2 := (hrem x).1
          have h3 := (hrem x).2
          by_contra hz
          push_neg at hz
          have hz0 : remaining bs (result ++ [node]) x = 0 := by omega
          have : x ∈ s.2 := by
            rw [hmem x]
            omega
          exact hxs2 this
        -- res_zero
        · intro x hx
          rcases List.mem_append.mp hx with hx | hx
          · have := inv.res_zero x hx
            have := remaining_mono bs result node x
            omega
          · have hxn : x = node := List.mem_singleton.mp hx
            subst hxn
            have := remaining_mono bs result x x
            omega
        -- res_order
        · intro x hx d hdaf hdK
          rcases List.mem_append.mp hx with hx | hx
          · obtain ⟨hdR, hidx⟩ := inv.res_order x hx d hdaf hdK
            refine ⟨List.mem_append.mpr (Or.inl hdR), ?_⟩
            rw [indexOf_append_left [node] hdR, indexOf_append_left [node] hx]
            exact hidx
          · have hxn : x = node := List.mem_singleton.mp hx
            subst hxn
            have hfil : (afterOf bs x).filter
                (fun d => (lookupB bs d).isSome && decide (d ∉ result)) = [] :=
              List.length_eq_zero.mp hnodeZero
            have hdR : d ∈ result := by
              by_contra hdR
              have hdSome : (lookupB bs d).isSome = true :=
                (lookupB_isSome_iff bs d).mpr hdK
              have : d ∈ (afterOf bs x).filter
                  (fun d => (lookupB bs d).isSome && decide (d ∉ result)) := by
                rw [List.mem_filter]
                exact ⟨hdaf, by simp [hdSome, hdR]⟩
              rw [hfil] at this
              simp at this
            refine ⟨List.mem_append.mpr (Or.inl hdR), ?_⟩
            rw [indexOf_append_left [x] hdR, indexOf_append_self hnodeFresh]
            exact List.indexOf_lt_length.mpr hdR
      · have : (result ++ [node]).length = result.length + 1 := by simp
        omega

/-- **C3.** For every branch map whose after-edge graph restricted to
in-map targets is acyclic, `TopoSort` returns no error and an ordering
that contains every key of the map exactly once (it is duplicate-free
and its members are exactly the keys), and for every branch `B` and
every name `D` in `B.after` that is a key of the map, `D` appears
strictly earlier in the output than `B`. -/
theorem topoSort_spec (bs : DMap) (hnd : (keysOf bs).Nodup)
    (hacyc : Acyclic bs) :
    ∃ out, TopoSort bs = some out ∧ out.Nodup
      ∧ (∀ k, k ∈ out ↔ k ∈ keysOf bs)
      ∧ ∀ x ∈ out, ∀ d, d ∈ afterOf bs x → d ∈ keysOf bs →
          out.indexOf d < out.indexOf x := by
  by_cases hempty : bs.isEmpty
  · have hbs : bs = [] := List.isEmpty_iff.mp hempty
    refine ⟨[], ?_, by simp, ?_, by simp⟩
    · unfold TopoSort
      rw [if_pos hempty]
    · intro k
      simp [hbs, keysOf]
  · have inv0 : KahnInv bs (seedQueue bs)
        (fun n => (inDeg0 bs n : Int)) [] := by
      constructor
      · exact List.nodup_nil
      · exact sortStrs_nodup (List.Nodup.filter _ hnd)
      · intro x hx
        rw [seedQueue, mem_sortStrs, List.mem_filter] at hx
        exact hx.1
      · intro x _
        simp
      · intro x hx
        simp at hx
      · intro x _
        rw [remaining_nil]
      · intro x hx
        rw [seedQueue, mem_sortStrs, List.mem_filter] at hx
        rw [remaining_nil]
        simpa using hx.2
      · intro x hxK _ hxQ
        rw [remaining_nil]
        rw [seedQueue, mem_sortStrs, List.mem_filter] at hxQ
        rcases Nat.eq_zero_or_pos (inDeg0 bs x) with h0 | h0
        · exact absurd ⟨hxK, by simpa using h0⟩ hxQ
        · exact h0
      · intro x hx
        simp at hx
      · intro x hx
        simp at hx
    have hmain := kahn_main bs hnd hacyc bs.length (seedQueue bs)
      (fun n => (inDeg0 bs n : Int)) [] inv0 (by simp)
    obtain ⟨hnodup, hkeys, hcomp, horder⟩ := hmain
    have hiff : ∀ k, k ∈ kahnLoop bs bs.length (seedQueue bs)
        (fun n => (inDeg0 bs n : Int)) [] ↔ k ∈ keysOf bs := by
      intro k
      exact ⟨fun h => hkeys k h, fun h => hcomp k h⟩
    have hperm : List.Perm
        (kahnLoop bs bs.length (seedQueue bs)
          (fun n => (inDeg0 bs n : Int)) []) (keysOf bs) := by
      apply List.perm_of_nodup_nodup_toFinset_eq hnodup hnd
      apply Finset.ext
      intro a
      rw [List.mem_toFinset, List.mem_toFinset]
      exact hiff a
    have hlen : (kahnLoop bs bs.length (seedQueue bs)
        (fun n => (inDeg0 bs n : Int)) []).length = bs.length := by
      rw [hperm.length_eq]
      simp [keysOf]
    refine ⟨_, ?_, hnodup, hiff, horder⟩
    unfold TopoSort
    rw [if_neg hempty]
    simp [hlen]

/-- Witness for `topoSort_spec` at the one-branch map
`{a: {parent: main}}`: the hypotheses hold and `TopoSort` behaves as
stated. -/
theorem topoSort_spec_witness :
    (keysOf [("a", (⟨"main", []⟩ : BranchInfo))]).Nodup
    ∧ Acyclic [("a", (⟨"main", []⟩ : BranchInfo))]
    ∧ ∃ out, TopoSort [("a", (⟨"main", []⟩ : BranchInfo))] = some out
        ∧ out.Nodup
        ∧ (∀ k, k ∈ out ↔ k ∈ keysOf [("a", (⟨"main", []⟩ : BranchInfo))])
        ∧ ∀ x ∈ out, ∀ d,
            d ∈ afterOf [("a", (⟨"main", []⟩ : BranchInfo))] x →
            d ∈ keysOf [("a", (⟨"main", []⟩ : BranchInfo))] →
            out.indexOf d < out.indexOf x := by
  have hno : ∀ x d, ¬ edgeOf [("a", (⟨"main", []⟩ : BranchInfo))] x d := by
    intro x d hc
    obtain ⟨_, _, hd⟩ := hc
    have haf : afterOf [("a", (⟨"main", []⟩ : BranchInfo))] x = [] := by
      unfold afterOf lookupB
      split <;> rfl
    rw [haf] at hd
    simp at hd
  have hacyc : Acyclic [("a", (⟨"main", []⟩ : BranchInfo))] := by
    have hall : ∀ a b, ¬ Relation.TransGen
        (edgeOf [("a", (⟨"main", []⟩ : BranchInfo))]) a b := by
      intro a b h
      induction h with
      | single h => exact hno _ _ h
      | tail _ h => exact hno _ _ h
    intro n h
    exact hall n n h
  exact ⟨by decide, hacyc, topoSort_spec _ (by decide) hacyc⟩

theorem cyclePath_self (par : String → String) (pf : Nat) (n : String) :
    cyclePathOf par pf n n = [n, n] := by
  unfold cyclePathOf buildPath
  rw [if_pos rfl]
  rfl

theorem dfsLoop_nil (adj : String → List String) (pf : Nat)
    (visit : Option (DfsSt → String → String → DfsSt × Option (List String)))
    (st : DfsSt) (node : String) :
    dfsLoop adj pf visit st node [] = (blackC node st, none) := rfl

theorem grayC_color_ne {n c : String} (st : DfsSt) (h : c ≠ n) :
    (grayC n st).color c = st.color c := by
  simp [grayC, h]

theorem blackC_color_ne {n c : String} (st : DfsSt) (h : c ≠ n) :
    (blackC n st).color c = st.color c := by
  simp [blackC, h]

theorem setPar_color (d n c : String) (st : DfsSt) :
    (setPar d n st).color c = st.color c := rfl

/-- Whenever the candidate `c` has a self-edge, any dependency scan
either reports a cycle or leaves `c`'s colour untouched; and a scan *of*
`c` itself (which is gray and still has its self-edge ahead) always
reports a cycle. -/
theorem dfsRun_found (adj : String → List String) (pf : Nat) (c : String)
    (hc : c ∈ adj c) :
    ∀ (fuel : Nat) (deps : List String) (st : DfsSt) (node : String),
      (node = c → st.color c = 1 ∧ c ∈ deps) →
      ((dfsRun adj pf fuel st node deps).2.isSome = true
        ∨ (node ≠ c ∧
            (dfsRun adj pf fuel st node deps).1.color c = st.color c)) := by
  intro fuel
  induction fuel with
  | zero =>
    intro deps
    induction deps with
    | nil =>
      intro st node hpre
      have hnode : node ≠ c := by
        intro h
        exact absurd (hpre h).2 (List.not_mem_nil c)
      rw [dfsRun, dfsLoop_nil]
      exact Or.inr ⟨hnode, blackC_color_ne st (Ne.symm hnode)⟩
    | cons dep rest ihd =>
      intro st node hpre
      rw [dfsRun, visitFn]
      simp only [dfsRun, visitFn] at ihd
      rw [dfsLoop]
      by_cases h1 : st.color dep = 1
      · rw [if_pos h1]
        exact Or.inl rfl
      · rw [if_neg h1]
        have hdepc : dep ≠ c ∨ node ≠ c := by
          by_cases hn : node = c
          · left
            intro hd
            rw [hd] at h1
            exact h1 (hpre hn).1
          · right
            exact hn
        have hcrest : node = c → st.color c = 1 ∧ c ∈ rest := by
          intro hn
          refine ⟨(hpre hn).1, ?_⟩
          rcases hdepc with hd | hd
          · rcases List.mem_cons.mp (hpre hn).2 with h | h
            · exact absurd h.symm hd
            · exact h
          · exact absurd hn hd
        by_cases h0 : st.color dep = 0
        · rw [if_pos h0]
          exact ihd st node hcrest
        · rw [if_neg h0]
          exact ihd st node hcrest
  | succ f ihf =>
    intro deps
    induction deps with
    | nil =>
      intro st node hpre
      have hnode : node ≠ c := by
        intro h
        exact absurd (hpre h).2 (List.not_mem_nil c)
      rw [dfsRun, dfsLoop_nil]
      exact Or.inr ⟨hnode, blackC_color_ne st (Ne.symm hnode)⟩
    | cons dep rest ihd =>
      intro st node hpre
      rw [dfsRun, visitFn]
      simp only [dfsRun, visitFn] at ihd
      rw [dfsLoop]
      by_cases h1 : st.color dep = 1
      · rw [if_pos h1]
        exact Or.inl rfl
      · rw [if_neg h1]
        by_cases h0 : st.color dep = 0
        · rw [if_pos h0]
          by_cases hdep : dep = c
          · have hpre1 : dep = c →
                (grayC dep (setPar dep node st)).color c = 1 ∧ c ∈ adj dep := by
              intro h
              constructor
              · simp [grayC, h.symm]
              · rw [h]
                exact hc
            have hin := ihf (adj dep)
              (grayC dep (setPar dep node st)) dep hpre1
            rw [dfsRun] at hin
            rcases hres : dfsLoop adj pf (visitFn adj pf f)
                (grayC dep (setPar dep node st)) dep (adj dep) with ⟨st2, r2⟩
            rw [hres] at hin
            rcases hin with hin | hin
            · cases r2 with
              | none => simp at hin
              | some p => exact Or.inl rfl
            · exact absurd hdep hin.1
          · have hpre1 : dep = c →
                (grayC dep (setPar dep node st)).color c = 1 ∧ c ∈ adj dep :=
              fun h => absurd h hdep
            have hin := ihf (adj dep)
              (grayC dep (setPar dep node st)) dep hpre1
            rw [dfsRun] at hin
            rcases hres : dfsLoop adj pf (visitFn adj pf f)
                (grayC dep (setPar dep node st)) dep (adj dep) with ⟨st2, r2⟩
            rw [hres] at hin
            cases r2 with
            | some p => exact Or.inl rfl
            | none =>
              rcases hin with hin | hin
              · simp at hin
              · have hst2 : st2.color c = st.color c := by
                  rw [hin.2, grayC_color_ne _ (fun h => hdep h.symm),
                    setPar_color]
                have hcrest : node = c → st2.color c = 1 ∧ c ∈ rest := by
                  intro hn
                  refine ⟨by rw [hst2]; exact (hpre hn).1, ?_⟩
                  rcases List.mem_cons.mp (hpre hn).2 with h | h
                  · exact absurd h.symm hdep
                  · exact h
                rcases ihd st2 node hcrest with hid | hid
                · exact Or.inl hid
                · exact Or.inr ⟨hid.1, by rw [hid.2, hst2]⟩
        · rw [if_neg h0]
          have hcrest : node = c → st.color c = 1 ∧ c ∈ rest := by
            intro hn
            refine ⟨(hpre hn).1, ?_⟩
            have hdep : dep ≠ c := by
              intro hd
              rw [hd] at h1
              exact h1 (hpre hn).1
            rcases List.mem_cons.mp (hpre hn).2 with h | h
            · exact absurd h.symm hdep
            · exact h
          exact ihd st node hcrest

theorem detectLoop_found (adj : String → List String) (pf fuel : Nat)
    (c : String) (hc : c ∈ adj c) :
    ∀ (nodes : List String) (st : DfsSt), c ∈ nodes → st.color c = 0 →
      (detectLoop adj pf fuel nodes st).isSome = true
  | [], _ => fun hcm _ => absurd hcm (List.not_mem_nil c)
  | u :: rest, st => by
    intro hcm hcw
    rw [detectLoop]
    by_cases hu : st.color u = 0
    · rw [if_pos hu]
      by_cases huc : u = c
      · have hpre : u = c → (grayC u st).color c = 1 ∧ c ∈ adj u := by
          intro h
          constructor
          · simp [grayC, h.symm]
          · rw [h]
            exact hc
        have hin := dfsRun_found adj pf c hc fuel (adj u) (grayC u st) u hpre
        rcases hres : dfsRun adj pf fuel (grayC u st) u (adj u) with ⟨st', r⟩
        rw [hres] at hin
        cases r with
        | some p => rfl
        | none =>
          rcases hin with hin | hin
          · simp at hin
          · exact absurd huc hin.1
      · have hpre : u = c → (grayC u st).color c = 1 ∧ c ∈ adj u :=
          fun h => absurd h huc
        have hin := dfsRun_found adj pf c hc fuel (adj u) (grayC u st) u hpre
        rcases hres : dfsRun adj pf fuel (grayC u st) u (adj u) with ⟨st', r⟩
        rw [hres] at hin
        cases r with
        | some p => rfl
        | none =>
          rcases hin with hin | hin
          · simp at hin
          · have hc0 : st'.color c = 0 := by
              rw [hin.2, grayC_color_ne st (fun h => huc h.symm)]
              exact hcw
            have hcrest : c ∈ rest := by
              rcases List.mem_cons.mp hcm with h | h
              · exact absurd h.symm huc
              · exact h
            exact detectLoop_found adj pf fuel c hc rest st' hcrest hc0
    · rw [if_neg hu]
      have huc : u ≠ c := by
        intro h
        rw [h] at hu
        exact hu hcw
      have hcrest : c ∈ rest := by
        rcases List.mem_cons.mp hcm with h | h
        · exact absurd h.symm huc
        · exact h
      exact detectLoop_found adj pf fuel c hc rest st hcrest hcw

theorem lookupB_mem {β : Type} :
    ∀ {m : List (String × β)} {k : String} {v : β},
      lookupB m k = some v → (k, v) ∈ m
  | [], _, _, h => by simp [lookupB] at h
  | e :: t, k, v, h => by
    rw [lookupB] at h
    by_cases he : e.1 = k
    · rw [if_pos he] at h
      have hv : e.2 = v := Option.some.inj h
      have hkv : e = (k, v) := by
        cases e with
        | mk a b =>
          simp only [Prod.mk.injEq]
          exact ⟨he, hv⟩
      rw [← hkv]
      exact List.mem_cons_self e t
    · rw [if_neg he] at h
      exact List.mem_cons_of_mem e (lookupB_mem h)

theorem dfsLoop_cons (adj : String → List String) (pf : Nat)
    (visit : Option (DfsSt → String → String → DfsSt × Option (List String)))
    (st : DfsSt) (node dep : String) (rest : List String) :
    dfsLoop adj pf visit st node (dep :: rest) =
      if st.color dep = 1 then
        (st, some (cyclePathOf st.parent pf node dep))
      else if st.color dep = 0 then
        match visit with
        | none => dfsLoop adj pf none st node rest
        | some v =>
          match v st node dep with
          | (st2, some p) => (st2, some p)
          | (st2, none) => dfsLoop adj pf (some v) st2 node rest
      else dfsLoop adj pf visit st node rest := rfl

/-- In a graph where every node other than `n` has no outgoing edges, a
dependency scan of the gray node `n` reaching its own name reports the
two-element path `[n, n]`. -/
theorem dfsScan_self (adj : String → List String) (pf : Nat) (n : String)
    (hadj : ∀ d, d ≠ n → adj d = []) :
    ∀ (deps : List String) (fuel : Nat) (st : DfsSt),
      st.color n = 1 → (∀ x, x ≠ n → st.color x = 0 ∨ st.color x = 2) →
      n ∈ deps →
      (dfsRun adj pf fuel st n deps).2 = some [n, n]
  | [], _, _ => fun _ _ hmem => absurd hmem (List.not_mem_nil n)
  | dep :: rest, fuel, st => by
    intro hgray hcolor hmem
    rw [dfsRun, dfsLoop_cons]
    by_cases hdep : dep = n
    · have h1 : st.color dep = 1 := by
        rw [hdep]
        exact hgray
      rw [if_pos h1, hdep, cyclePath_self]
    · have hrest : n ∈ rest := by
        rcases List.mem_cons.mp hmem with h | h
        · exact absurd h.symm hdep
        · exact h
      rcases hcolor dep hdep with h0 | h2
      · have h1 : ¬ st.color dep = 1 := by omega
        rw [if_neg h1, if_pos h0]
        cases fuel with
        | zero =>
          rw [visitFn]
          have := dfsScan_self adj pf n hadj rest 0 st hgray hcolor hrest
          rw [dfsRun, visitFn] at this
          exact this
        | succ f =>
          rw [visitFn]
          have hempty : adj dep = [] := hadj dep hdep
          have hinner : dfsLoop adj pf (visitFn adj pf f)
              (grayC dep (setPar dep n st)) dep (adj dep) =
              (blackC dep (grayC dep (setPar dep n st)), none) := by
            rw [hempty, dfsLoop_nil]
          simp only [hinner]
          have hgray2 : (blackC dep (grayC dep (setPar dep n st))).color n
              = 1 := by
            rw [blackC_color_ne _ (fun h => hdep h.symm),
              grayC_color_ne _ (fun h => hdep h.symm), setPar_color]
            exact hgray
          have hcolor2 : ∀ x, x ≠ n →
              (blackC dep (grayC dep (setPar dep n st))).color x = 0
              ∨ (blackC dep (grayC dep (setPar dep n st))).color x = 2 := by
            intro x hx
            by_cases hxd : x = dep
            · right
              simp [blackC, hxd]
            · rw [blackC_color_ne _ hxd, grayC_color_ne _ hxd, setPar_color]
              exact hcolor x hx
          have := dfsScan_self adj pf n hadj rest (f + 1)
            (blackC dep (grayC dep (setPar dep n st))) hgray2 hcolor2 hrest
          rw [dfsRun, visitFn] at this
          exact this
      · have h1 : ¬ st.color dep = 1 := by omega
        have h0 : ¬ st.color dep = 0 := by omega
        rw [if_neg h1, if_neg h0]
        have := dfsScan_self adj pf n hadj rest fuel st hgray hcolor hrest
        rw [dfsRun] at this
        exact this

/-- Top-loop version of `dfsScan_self`: with no other edges in the graph
and `n` still white, the traversal returns exactly `[n, n]`. -/
theorem detectLoop_self (adj : String → List String) (pf fuel : Nat)
    (n : String) (hadj : ∀ d, d ≠ n → adj d = []) (hn : n ∈ adj n) :
    ∀ (nodes : List String) (st : DfsSt),
      st.color n = 0 → (∀ x, x ≠ n → st.color x = 0 ∨ st.color x = 2) →
      n ∈ nodes →
      detectLoop adj pf fuel nodes st = some [n, n]
  | [], _ => fun _ _ hmem => absurd hmem (List.not_mem_nil n)
  | u :: rest, st => by
    intro hwhite hcolor hmem
    rw [detectLoop]
    by_cases hun : u = n
    · subst hun
      rw [if_pos hwhite]
      have hgray : (grayC u st).color u = 1 := by
        simp [grayC]
      have hcolor2 : ∀ x, x ≠ u → (grayC u st).color x = 0
          ∨ (grayC u st).color x = 2 := by
        intro x hx
        rw [grayC_color_ne _ hx]
        exact hcolor x hx
      have hscan := dfsScan_self adj pf u hadj (adj u) fuel (grayC u st)
        hgray hcolor2 hn
      rcases hres : dfsRun adj pf fuel (grayC u st) u (adj u) with ⟨st', r⟩
      rw [hres] at hscan
      simp only at hscan
      rw [hscan]
    · rcases hcolor u hun with hu0 | hu2
      · rw [if_pos hu0]
        have hempty : adj u = [] := hadj u hun
        have hres : dfsRun adj pf fuel (grayC u st) u (adj u) =
            (blackC u (grayC u st), none) := by
          rw [dfsRun, hempty, dfsLoop_nil]
        rw [hres]
        have hrest : n ∈ rest := by
          rcases List.mem_cons.mp hmem with h | h
          · exact absurd h.symm hun
          · exact h
        have hwhite2 : (blackC u (grayC u st)).color n = 0 := by
          rw [blackC_color_ne _ (fun h => hun h.symm),
            grayC_color_ne _ (fun h => hun h.symm)]
          exact hwhite
        have hcolor2 : ∀ x, x ≠ n → (blackC u (grayC u st)).color x = 0
            ∨ (blackC u (grayC u st)).color x = 2 := by
          intro x hx
          by_cases hxu : x = u
          · right
            simp [blackC, hxu]
          · rw [blackC_color_ne _ hxu, grayC_color_ne _ hxu]
            exact hcolor x hx
        exact detectLoop_self adj pf fuel n hadj hn rest
          (blackC u (grayC u st)) hwhite2 hcolor2 hrest
      · have hu0 : ¬ st.color u = 0 := by omega
        rw [if_neg hu0]
        have hrest : n ∈ rest := by
          rcases List.mem_cons.mp hmem with h | h
          · exact absurd h.symm hun
          · exact h
        exact detectLoop_self adj pf fuel n hadj hn rest st hwhite
          hcolor hrest

/-- **C7 counterexample.** With branches `{a: {after: [x]}}` and
candidate `x` with `after = [a, x]` — a direct self-dependency — the
sorted DFS reaches the larger cycle `x → a → x` first and returns the
path `[a, x, a]`, not the trivial one-element cycle on `x` (under either
reading, `[x]` or `[x, x]`). -/
theorem detectCycle_self_counterexample :
    DetectCycle [("a", (⟨"main", ["x"]⟩ : BranchInfo))] "x" ["a", "x"]
      = (["a", "x", "a"], true)
    ∧ (["a", "x", "a"] : List String) ≠ ["x"]
    ∧ (["a", "x", "a"] : List String) ≠ ["x", "x"] :=
  ⟨by decide, by decide, by decide⟩

/-- **C7 (amended).** For every branch map, calling the cycle detector
with a candidate node whose `after` list contains the candidate's own
name reports a cycle (`hasCycle = true`); but the returned path is
whichever cycle the sorted DFS finds first, not necessarily the
self-loop.  When no existing branch has any `after` dependencies (so the
self-loop is the only edge structure), the returned path is the
candidate repeated twice, `[n, n]` — the one-edge self cycle rendered
with its endpoint at both ends, rather than a one-element path. -/
theorem detectCycle_selfdep (bs : DMap) (n : String) (l : List String)
    (hmem : n ∈ l) :
    (DetectCycle bs n l).2 = true
    ∧ ((∀ e ∈ bs, e.2.after = []) →
        DetectCycle bs n l = ([n, n], true)) := by
  have hadjn : adjOf bs n l n = l := by simp [adjOf]
  have hc : n ∈ adjOf bs n l n := by
    rw [hadjn]
    exact hmem
  have hnode : n ∈ allNodesList bs n l := by
    rw [allNodesList, mem_sortStrs, List.mem_dedup]
    simp
  constructor
  · have hfound := detectLoop_found (adjOf bs n l)
      (allNodesList bs n l).length (allNodesList bs n l).length n hc
      (allNodesList bs n l) ⟨fun _ => 0, fun _ => ""⟩ hnode rfl
    show (match detectLoop (adjOf bs n l) (allNodesList bs n l).length
        (allNodesList bs n l).length (allNodesList bs n l)
        (⟨fun _ => 0, fun _ => ""⟩ : DfsSt) with
      | some p => (p, true)
      | none => (([] : List String), false)).2 = true
    cases hdl : detectLoop (adjOf bs n l) (allNodesList bs n l).length
        (allNodesList bs n l).length (allNodesList bs n l)
        (⟨fun _ => 0, fun _ => ""⟩ : DfsSt) with
    | some p => rfl
    | none =>
      rw [hdl] at hfound
      simp at hfound
  · intro hafters
    have hadj : ∀ d, d ≠ n → adjOf bs n l d = [] := by
      intro d hd
      simp only [adjOf]
      rw [if_neg hd]
      cases hlk : lookupB bs d with
      | none => rfl
      | some info => exact hafters (d, info) (lookupB_mem hlk)
    have hdl := detectLoop_self (adjOf bs n l)
      (allNodesList bs n l).length (allNodesList bs n l).length n hadj hc
      (allNodesList bs n l) ⟨fun _ => 0, fun _ => ""⟩ rfl
      (fun _ _ => Or.inl rfl) hnode
    show (match detectLoop (adjOf bs n l) (allNodesList bs n l).length
        (allNodesList bs n l).length (allNodesList bs n l)
        (⟨fun _ => 0, fun _ => ""⟩ : DfsSt) with
      | some p => (p, true)
      | none => (([] : List String), false)) = ([n, n], true)
    rw [hdl]

/-- Witness for `detectCycle_selfdep` at `bs = {b: {}}`, candidate `x`
with `after = [x]`. -/
theorem detectCycle_selfdep_witness :
    ("x" ∈ ["x"]
      ∧ ∀ e ∈ [("b", (⟨"main", []⟩ : BranchInfo))], e.2.after = [])
    ∧ (DetectCycle [("b", (⟨"main", []⟩ : BranchInfo))] "x" ["x"]).2 = true
    ∧ DetectCycle [("b", (⟨"main", []⟩ : BranchInfo))] "x" ["x"]
        = (["x", "x"], true) := by
  have h := detectCycle_selfdep [("b", (⟨"main", []⟩ : BranchInfo))]
    "x" ["x"] (by decide)
  exact ⟨⟨by decide, by decide⟩, h.1, h.2 (by decide)⟩

/-! ## Sync orchestrator (`cmd/sync.go`) -/

/-- `removeFromSlice` (sync.go): a new slice with all occurrences of
`val` removed; returns nil (`none`) when the result would be empty. -/
def removeFromSlice (s : Option (List String)) (val : String) :
    Option (List String) :=
  let r := (s.getD []).filter (fun v => v ≠ val)
  if r = [] then none else some r

/-- `stateToDag` (cmd/helpers.go): project `state.Branch` to
`dag.BranchInfo`. -/
def stateToDag (bm : BMap) : DMap :=
  bm.map (fun e => (e.1, ⟨e.2.parent, e.2.after.getD []⟩))

/-- Step 5a per-entry effect while merged branch `m` (old parent `p`)
is processed: children of `m` are reparented to `p`. -/
def reparentVal (m p : String) (b : Branch) : Branch :=
  if b.parent = m then { b with parent := p } else b

/-- Step 5c per-entry effect: prune `m` from the `after` list. -/
def pruneVal (m : String) (b : Branch) : Branch :=
  { b with after := removeFromSlice b.after m }

/-- Steps 5a, 5c and 5d of merge processing for a single merged branch
`m` whose captured old parent is `p` (effect on the branches map; the
Go loops mutate values pointwise, so the map-iteration order inside one
merged branch is unobservable in the final map). -/
def mergeTransform (m p : String) (bm : BMap) : BMap :=
  ((bm.map (fun e => (e.1, reparentVal m p e.2))).map
      (fun e => (e.1, pruneVal m e.2))).filter (fun e => e.1 ≠ m)

/-- Merge processing (step 5) over the merged branches in detection
order, with each branch's attributes as captured before deletion. -/
def processMerged (md : List (String × Branch)) (bm : BMap) : BMap :=
  md.foldl (fun acc e => mergeTransform e.1 e.2.parent acc) bm

/-- Accumulator for the full merge-processing pass, recording the
reporting data `runSync` collects (`result.Merged`, `result.Reparented`,
`reparentedFrom`, and the `gh.PREdit` retarget calls). -/
structure MergeAcc where
  branches : BMap
  merged : List String
  reparented : List (String × String)
  reparentedFrom : List (String × String)
  retargets : List (Int × String)
  deriving DecidableEq, Repr

/-- One iteration of the `for _, merged := range mergedBranches` loop. -/
def processMergedStep (acc : MergeAcc) (e : String × Branch) : MergeAcc :=
  let m := e.1
  let mp := e.2.parent
  let children := acc.branches.filter (fun x => x.2.parent = m)
  { branches := mergeTransform m mp acc.branches
    merged := acc.merged ++ [m]
    reparented := acc.reparented ++ children.map (fun x => (x.1, mp))
    reparentedFrom := acc.reparentedFrom ++ children.map (fun x => (x.1, m))
    retargets := acc.retargets
      ++ children.filterMap (fun x => x.2.pr.map (fun p => (p, mp))) }

/-- Step 4, merge detection: walk the branch map in the (unspecified Go
map) iteration order `order`; a branch is merged when it has a PR whose
queried state is `MERGED`; a failed query (`none`) is a warning and the
branch counts as not merged. -/
def detectMerged (order : List (String × Branch))
    (prView : Int → Option String) : List (String × Branch) :=
  order.filter (fun e =>
    match e.2.pr with
    | none => false
    | some p =>
      match prView p with
      | none => false
      | some st => st = "MERGED")

/-- Outcome of one `git.Rebase` call: success, a
`*git.RebaseConflictError`, or any other error. -/
inductive RebaseRes
  | ok
  | conflict
  | fail
  deriving DecidableEq, Repr

/-- The report data accumulated by the step-7 rebase loop. -/
structure PhaseAcc where
  rebased : List String
  unblocked : List String
  blocked : List (String × List String)
  conflicts : List String
  deriving DecidableEq, Repr

/-- How the rebase loop ended: ran to completion, stopped at a
conflict, or aborted with a generic rebase error. -/
inductive PhaseOut
  | done (acc : PhaseAcc)
  | conflicted (acc : PhaseAcc) (branch : String)
  | failed (branch : String)
  deriving DecidableEq, Repr

/-- Step 7: walk the topological order; rebase each ready branch onto
its (possibly just-updated) parent, stopping at the first conflict;
record still-blocked branches untouched.  The branches map `bm` is only
read (`st.Branches[name].Parent`), never written. -/
def rebaseWalk (bm : BMap) (rm : String → Option ReadinessInfo)
    (unblockedSet : String → Bool) (ro : String → String → RebaseRes) :
    List String → PhaseAcc → PhaseOut
  | [], acc => .done acc
  | name :: rest, acc =>
    let ri := (rm name).getD ⟨"", false, []⟩
    if ri.ready then
      match ro (((lookupB bm name).getD ⟨"", none, none⟩).parent) name with
      | .conflict =>
        .conflicted { acc with conflicts := acc.conflicts ++ [name] } name
      | .fail => .failed name
      | .ok =>
        rebaseWalk bm rm unblockedSet ro rest
          { acc with
            rebased := acc.rebased ++ [name]
            unblocked :=
              if unblockedSet name then acc.unblocked ++ [name]
              else acc.unblocked }
    else
      rebaseWalk bm rm unblockedSet ro rest
        { acc with blocked := acc.blocked ++ [(name, ri.blockedBy)] }

/-- `syncResult` (cmd/sync.go). -/
structure SyncResult where
  merged : List String
  reparented : List (String × String)
  rebased : List String
  unblocked : List String
  blocked : List (String × List String)
  conflicts : List String
  deriving DecidableEq, Repr

/-- How `runSync` returns to the command layer. -/
inductive SyncExit
  | ok
  | conflictExit
  | genericError
  deriving DecidableEq, Repr

/-- Process exit code, per `main.go`: an `ExitError` carries its code
(`runSync` uses `&ExitError{Code: 2}` for conflicts), any other error
exits 1, success exits 0. -/
def exitCode : SyncExit → Nat
  | .ok => 0
  | .conflictExit => 2
  | .genericError => 1

/-- The full sync outcome: the report, the final branches map (already
written to the store before the rebase phase), the PR retarget calls
issued, and the exit disposition. -/
structure SyncOut where
  result : SyncResult
  branches : BMap
  retargets : List (Int × String)
  exit : SyncExit
  deriving DecidableEq, Repr

def emptySyncResult : SyncResult := ⟨[], [], [], [], [], []⟩

/-- `runSync` from merge detection onwards (locking, reading, fetch and
the current-branch snapshot are assumed to succeed; they precede any
state mutation).  `order` is the Go map-iteration order over
`st.Branches` used by merge detection — a permutation of the entries,
unspecified by Go.  `prView` is the `gh.PRView` oracle (`none` = query
error, logged and treated as unmerged), `ro` the `git.Rebase` oracle. -/
def runSync (st : BMap) (order : List (String × Branch))
    (prView : Int → Option String)
    (ro : String → String → RebaseRes) : SyncOut :=
  if st.isEmpty then ⟨emptySyncResult, st, [], .ok⟩
  else
    let md := detectMerged order prView
    let acc := md.foldl processMergedStep ⟨st, [], [], [], []⟩
    let dagb := stateToDag acc.branches
    match TopoSort dagb with
    | none => ⟨emptySyncResult, acc.branches, acc.retargets, .genericError⟩
    | some topoOrder =>
      let readiness := ComputeReadiness dagb
      let rm : String → Option ReadinessInfo := fun n =>
        (readiness.filter (fun ri => ri.name = n)).head?
      let ub : String → Bool := fun n =>
        decide ((acc.reparented.filter (fun e => e.1 = n)) ≠ []) &&
          (match rm n with
            | some ri => ri.ready
            | none => false)
      match rebaseWalk acc.branches rm ub ro topoOrder ⟨[], [], [], []⟩ with
      | .failed _ =>
        ⟨emptySyncResult, acc.branches, acc.retargets, .genericError⟩
      | .done pa =>
        ⟨⟨acc.merged, acc.reparented, pa.rebased, pa.unblocked,
            pa.blocked, pa.conflicts⟩,
          acc.branches, acc.retargets, .ok⟩
      | .conflicted pa _ =>
        ⟨⟨acc.merged, acc.reparented, pa.rebased, pa.unblocked,
            pa.blocked, pa.conflicts⟩,
          acc.branches, acc.retargets, .conflictExit⟩

/-- The spec's parent invariant: every remaining branch's parent is the
trunk or a key currently in the branches map. -/
def parentInvariant (trunk : String) (bm : BMap) : Prop :=
  ∀ e ∈ bm, e.2.parent = trunk ∨ e.2.parent ∈ keysOf bm

instance (trunk : String) (bm : BMap) :
    Decidable (parentInvariant trunk bm) := by
  unfold parentInvariant
  infer_instance

/-- The branches map sync leaves behind, as a function of the state,
the detection order and the PR oracle alone: the state is written
before the rebase phase, which only reads it. -/
def syncBranches (st : BMap) (order : List (String × Branch))
    (prView : Int → Option String) : BMap :=
  if st.isEmpty then st
  else (List.foldl processMergedStep ⟨st, [], [], [], []⟩
      (detectMerged order prView)).branches

/-- Go `encoding/json` rendering of the branch's after field (struct
tag is plain, no omitempty): a nil slice encodes as null, a non-nil
slice as a bracketed array. -/
def afterJSON : Option (List String) → String
  | none => "null"
  | some l =>
    "[" ++ String.intercalate ","
      (l.map (fun s => "\x22" ++ s ++ "\x22")) ++ "]"

/-- One iteration of untrack's per-branch loop (cmd/untrack.go steps
6-7) for removed branch `name` whose old parent was `rp`: rebuild the
after list into a freshly allocated non-nil slice, assign it only when
`name` was actually present, then reparent children of `name`. -/
def untrackEntryUpdate (name rp : String) (b : Branch) : Branch :=
  let newAfter := (b.after.getD []).filter (fun dep => dep ≠ name)
  let wasInAfter := (b.after.getD []).any (fun dep => dep = name)
  let b1 := if wasInAfter then { b with after := some newAfter } else b
  if b1.parent = name then { b1 with parent := rp } else b1

/-! ## Lock model (`internal/state`) -/

/-- The lockfile's observable content: its modification-time age in
seconds and the recorded process id. -/
structure LockMarker where
  age : Nat
  pid : Nat
  deriving DecidableEq, Repr

/-- The filesystem state the lock touches: the optional lockfile. -/
structure LockFS where
  marker : Option LockMarker
  deriving DecidableEq, Repr

/-- `lockStaleDuration`: 5 minutes, in seconds. -/
def lockStaleDuration : Nat := 300

/-- `tryLock`: `O_CREATE|O_EXCL` — succeeds iff no lockfile exists,
writing the caller's pid with a fresh mtime. -/
def tryLock (self : Nat) (fs : LockFS) : Bool × LockFS :=
  match fs.marker with
  | some _ => (false, fs)
  | none => (true, ⟨some ⟨0, self⟩⟩)

/-- `lockPIDAlive`: false when the file is unreadable or records a
non-positive pid, otherwise whether that process is running. -/
def lockPIDAlive (alive : Nat → Bool) : Option LockMarker → Bool
  | none => false
  | some mk => if mk.pid = 0 then false else alive mk.pid

/-- How `Lock` fails: lockfile held by another (fresh, live) process,
or the once-only retry after removing a stale lockfile also failed. -/
inductive LockErr
  | held
  | retryFailed
  deriving DecidableEq, Repr

/-- `state.Lock`: try to create the lockfile; on failure, treat the
existing one as stale iff its age exceeds the threshold OR its
recorded pid is not alive; a stale lockfile is removed and the
acquisition retried exactly once (`adv` is the marker an interfering
process may create between the removal and the retry; a second failure
is the hard retry error), a fresh one is a hard held-by-another error. -/
def Lock (alive : Nat → Bool) (self : Nat) (adv : Option LockMarker)
    (fs : LockFS) : Except LockErr LockFS :=
  let t1 := tryLock self fs
  if t1.1 then Except.ok t1.2
  else
    match fs.marker with
    | none => Except.ok t1.2
    | some mk =>
      if lockStaleDuration < mk.age ∨ lockPIDAlive alive (some mk) = false
      then
        let t2 := tryLock self ⟨adv⟩
        if t2.1 then Except.ok t2.2
        else Except.error LockErr.retryFailed
      else Except.error LockErr.held

/-- The unlock closure returned by `Lock`: remove the lockfile. -/
def unlockFS (_ : LockFS) : LockFS := ⟨none⟩

/-- **C1 (code bug).** Failing input for the parent invariant: trunk
`main`, branches `{a: {parent: main, pr: 10}, b: {parent: a, pr: 20},
c: {parent: b}}`, the host reports PRs 10 and 20 (a parent chain) as
merged, and the Go map iteration happens to visit `a` before `b`.
Merge processing reparents `c` to `b`'s parent as captured *before*
deletion — the already-deleted branch `a` — so after the completed sync
the surviving branch `c` has `parent = "a"`, which is neither the trunk
nor a key of the map: the invariant the spec promises after every
completed reconciliation is violated. -/
theorem sync_parent_invariant_violation :
    (runSync
        [("a", ⟨"main", none, some 10⟩), ("b", ⟨"a", none, some 20⟩),
          ("c", ⟨"b", none, none⟩)]
        [("a", ⟨"main", none, some 10⟩), ("b", ⟨"a", none, some 20⟩),
          ("c", ⟨"b", none, none⟩)]
        (fun p => if p = 10 || p = 20 then some "MERGED" else some "OPEN")
        (fun _ _ => .ok)).branches = [("c", ⟨"a", none, none⟩)]
    ∧ ¬ parentInvariant "main" [("c", (⟨"a", none, none⟩ : Branch))] :=
  ⟨by decide, by decide⟩

/-- **C4 counterexample.** In the claimed scenario — branches
`{a: {parent: trunk, pr: 10}, b: {parent: a, pr: 20}}`, host reports
PR 10 merged, every rebase succeeds — sync *does* include `b` in the
newly-unblocked set (the code classifies every branch that was
reparented and is now ready as unblocked, without consulting its
readiness before the merge), contradicting the claim that `b` is
excluded because it was already ready. -/
theorem sync_unblocked_counterexample :
    (runSync
        [("a", ⟨"main", none, some 10⟩), ("b", ⟨"a", none, some 20⟩)]
        [("a", ⟨"main", none, some 10⟩), ("b", ⟨"a", none, some 20⟩)]
        (fun p => if p = 10 then some "MERGED" else some "OPEN")
        (fun _ _ => .ok)).result.unblocked = ["b"] :=
  by decide

/-- **C4 (amended).** Same scenario: sync removes `a`, sets `b.parent`
to the trunk, retargets PR 20 to the trunk, and rebases `b` onto the
trunk; but `b` *is* reported as newly unblocked (it is in the unblocked
set as well as the rebased list), because the code's classification is
"reparented and now ready", regardless of prior readiness. -/
theorem sync_merged_scenario :
    runSync
        [("a", ⟨"main", none, some 10⟩), ("b", ⟨"a", none, some 20⟩)]
        [("a", ⟨"main", none, some 10⟩), ("b", ⟨"a", none, some 20⟩)]
        (fun p => if p = 10 then some "MERGED" else some "OPEN")
        (fun _ _ => .ok)
      = ⟨⟨["a"], [("b", "main")], ["b"], ["b"], [], []⟩,
          [("b", ⟨"main", none, some 20⟩)], [(20, "main")], .ok⟩ :=
  by decide

theorem filter_key_map (v : Branch → Branch) (p : String → Bool) :
    ∀ l : BMap,
      ((l.map (fun e => (e.1, v e.2))).filter (fun e => p e.1))
        = (l.filter (fun e => p e.1)).map (fun e => (e.1, v e.2))
  | [] => rfl
  | e :: t => by
    by_cases hp : p e.1 = true
    · simp [List.filter_cons, hp, filter_key_map v p t]
    · simp [List.filter_cons, hp, filter_key_map v p t]

theorem map_val_comp (v1 v2 : Branch → Branch) :
    ∀ l : BMap,
      (l.map (fun e => (e.1, v1 e.2))).map (fun e => (e.1, v2 e.2))
        = l.map (fun e => (e.1, v2 (v1 e.2)))
  | [] => rfl
  | e :: t => by
    simp only [List.map_cons]
    rw [map_val_comp v1 v2 t]

theorem filter_comm' (p q : String × Branch → Bool) :
    ∀ l : BMap, (l.filter p).filter q = (l.filter q).filter p
  | [] => rfl
  | e :: t => by
    by_cases hp : p e = true
    · by_cases hq : q e = true
      · simp [List.filter_cons, hp, hq, filter_comm' p q t]
      · simp [List.filter_cons, hp, hq, filter_comm' p q t]
    · by_cases hq : q e = true
      · simp [List.filter_cons, hp, hq, filter_comm' p q t]
      · simp [List.filter_cons, hp, hq, filter_comm' p q t]

theorem mergeTransform_eq (m p : String) (bm : BMap) :
    mergeTransform m p bm =
      (bm.filter (fun e => e.1 ≠ m)).map
        (fun e => (e.1, pruneVal m (reparentVal m p e.2))) := by
  unfold mergeTransform
  rw [map_val_comp]
  exact filter_key_map (fun b => pruneVal m (reparentVal m p b))
    (fun k => decide (k ≠ m)) bm

theorem removeFromSlice_pair (s : Option (List String)) (m1 m2 : String) :
    removeFromSlice (removeFromSlice s m1) m2 =
      (if (s.getD []).filter (fun v => v ≠ m1 && v ≠ m2) = [] then none
        else some ((s.getD []).filter (fun v => v ≠ m1 && v ≠ m2))) := by
  have hff : ((s.getD []).filter (fun v => v ≠ m1)).filter (fun v => v ≠ m2)
      = (s.getD []).filter (fun v => v ≠ m1 && v ≠ m2) := by
    rw [List.filter_filter]
    apply List.filter_congr
    intro x _
    rw [Bool.and_comm]
  by_cases h1 : (s.getD []).filter (fun v => v ≠ m1) = []
  · have h2 : (s.getD []).filter (fun v => v ≠ m1 && v ≠ m2) = [] := by
      rw [← hff, h1]
      rfl
    have hinner : removeFromSlice s m1 = none := by
      simp only [removeFromSlice]
      rw [if_pos h1]
    rw [hinner, h2]
    simp [removeFromSlice]
  · have hinner : removeFromSlice s m1
        = some ((s.getD []).filter (fun v => v ≠ m1)) := by
      simp only [removeFromSlice]
      rw [if_neg h1]
    rw [hinner]
    simp only [removeFromSlice, Option.getD_some]
    rw [hff]

theorem removeFromSlice_comm (s : Option (List String)) (m1 m2 : String) :
    removeFromSlice (removeFromSlice s m1) m2
      = removeFromSlice (removeFromSlice s m2) m1 := by
  rw [removeFromSlice_pair, removeFromSlice_pair]
  have h : (s.getD []).filter (fun v => v ≠ m2 && v ≠ m1)
      = (s.getD []).filter (fun v => v ≠ m1 && v ≠ m2) := by
    apply List.filter_congr
    intro x _
    rw [Bool.and_comm]
  rw [h]

theorem valT_normal (m p : String) (b : Branch) :
    pruneVal m (reparentVal m p b) =
      ⟨if b.parent = m then p else b.parent,
        removeFromSlice b.after m, b.pr⟩ := by
  unfold reparentVal pruneVal
  by_cases hb : b.parent = m
  · rw [if_pos hb, if_pos hb]
  · rw [if_neg hb, if_neg hb]

theorem valT_comm (m1 p1 m2 p2 : String) (h12 : m1 ≠ m2)
    (hp1 : p1 ≠ m2) (hp2 : p2 ≠ m1) (b : Branch) :
    pruneVal m2 (reparentVal m2 p2 (pruneVal m1 (reparentVal m1 p1 b)))
      = pruneVal m1 (reparentVal m1 p1
          (pruneVal m2 (reparentVal m2 p2 b))) := by
  rw [valT_normal m1 p1 b, valT_normal m2 p2 b,
    valT_normal m2 p2, valT_normal m1 p1]
  simp only [Branch.mk.injEq]
  refine ⟨?_, ?_, trivial⟩
  · by_cases hb1 : b.parent = m1
    · have hb2 : b.parent ≠ m2 := by
        rw [hb1]
        exact h12
      rw [if_pos hb1, if_neg hb2, if_pos hb1, if_neg hp1]
    · by_cases hb2 : b.parent = m2
      · rw [if_neg hb1, if_pos hb2, if_neg hp2]
      · rw [if_neg hb1, if_neg hb2, if_neg hb1]
  · exact removeFromSlice_comm b.after m1 m2

theorem mergeTransform_pair (m1 p1 m2 p2 : String) (bm : BMap) :
    mergeTransform m2 p2 (mergeTransform m1 p1 bm)
      = ((bm.filter (fun e => e.1 ≠ m1)).filter (fun e => e.1 ≠ m2)).map
          (fun e => (e.1, pruneVal m2 (reparentVal m2 p2
            (pruneVal m1 (reparentVal m1 p1 e.2))))) := by
  rw [mergeTransform_eq, mergeTransform_eq]
  calc
    ((((bm.filter (fun e => e.1 ≠ m1)).map
          (fun e => (e.1, pruneVal m1 (reparentVal m1 p1 e.2)))).filter
        (fun e => e.1 ≠ m2)).map
      (fun e => (e.1, pruneVal m2 (reparentVal m2 p2 e.2))))
        = ((((bm.filter (fun e => e.1 ≠ m1)).filter
              (fun e => e.1 ≠ m2)).map
            (fun e => (e.1, pruneVal m1 (reparentVal m1 p1 e.2)))).map
          (fun e => (e.1, pruneVal m2 (reparentVal m2 p2 e.2)))) := by
          exact congrArg
            (List.map (fun e => (e.1, pruneVal m2 (reparentVal m2 p2 e.2))))
            (filter_key_map (fun b => pruneVal m1 (reparentVal m1 p1 b))
              (fun k => decide (k ≠ m2)) (bm.filter (fun e => e.1 ≠ m1)))
    _ = ((bm.filter (fun e => e.1 ≠ m1)).filter (fun e => e.1 ≠ m2)).map
          (fun e => (e.1, pruneVal m2 (reparentVal m2 p2
            (pruneVal m1 (reparentVal m1 p1 e.2))))) :=
          map_val_comp (fun b => pruneVal m1 (reparentVal m1 p1 b))
            (fun b => pruneVal m2 (reparentVal m2 p2 b)) _

theorem mergeTransform_comm (m1 p1 m2 p2 : String) (h12 : m1 ≠ m2)
    (hp1 : p1 ≠ m2) (hp2 : p2 ≠ m1) (bm : BMap) :
    mergeTransform m2 p2 (mergeTransform m1 p1 bm)
      = mergeTransform m1 p1 (mergeTransform m2 p2 bm) := by
  rw [mergeTransform_pair m1 p1 m2 p2 bm, mergeTransform_pair m2 p2 m1 p1 bm]
  rw [filter_comm' (fun e => decide (e.1 ≠ m1)) (fun e => decide (e.1 ≠ m2))
    bm]
  apply List.map_congr_left
  intro e _
  exact congrArg (Prod.mk e.1) (valT_comm m1 p1 m2 p2 h12 hp1 hp2 e.2)

/-- **C2 counterexample.** State `{a: {parent: main}, b: {parent: a},
c: {parent: b}}` with both `a` and `b` merged (attributes captured
before deletion): processing in order `[a, b]` leaves `c.parent = "a"`,
processing in order `[b, a]` leaves `c.parent = "main"` — the two
orders yield different final branches maps, so merge processing is not
order-independent. -/
theorem processMerged_order_counterexample :
    processMerged
        [("a", ⟨"main", none, some 10⟩), ("b", ⟨"a", none, some 20⟩)]
        [("a", ⟨"main", none, some 10⟩), ("b", ⟨"a", none, some 20⟩),
          ("c", ⟨"b", none, none⟩)]
      = [("c", ⟨"a", none, none⟩)]
    ∧ processMerged
        [("b", ⟨"a", none, some 20⟩), ("a", ⟨"main", none, some 10⟩)]
        [("a", ⟨"main", none, some 10⟩), ("b", ⟨"a", none, some 20⟩),
          ("c", ⟨"b", none, none⟩)]
      = [("c", ⟨"main", none, none⟩)]
    ∧ ([("c", (⟨"a", none, none⟩ : Branch))] : BMap)
        ≠ [("c", ⟨"main", none, none⟩)] :=
  ⟨by decide, by decide, by decide⟩

/-- **C2 (amended).** Merge processing is order-independent *provided no
merged branch's captured parent is itself one of the merged branches*
(merged branch names distinct, as map keys are): for any two orders of
the same merged set, the final branches maps coincide.  Without that
proviso the effects are not independent — reparenting a chain of merged
branches reads the stale captured parent (see the counterexample). -/
theorem processMerged_perm (md1 md2 : List (String × Branch))
    (h : List.Perm md1 md2) (hnd : (keysOf md1).Nodup)
    (hpar : ∀ e ∈ md1, e.2.parent ∉ keysOf md1) :
    ∀ bm, processMerged md1 bm = processMerged md2 bm := by
  induction h with
  | nil => intro bm; rfl
  | cons x h ih =>
    intro bm
    rename_i l1 l2
    have hnd' : (keysOf l1).Nodup := by
      simp only [keysOf, List.map_cons, List.nodup_cons] at hnd
      exact hnd.2
    have hpar' : ∀ e ∈ l1, e.2.parent ∉ keysOf l1 := by
      intro e he hc
      refine hpar e (List.mem_cons_of_mem x he) ?_
      simp only [keysOf, List.map_cons]
      exact List.mem_cons_of_mem x.1 hc
    show processMerged l1 (mergeTransform x.1 x.2.parent bm)
      = processMerged l2 (mergeTransform x.1 x.2.parent bm)
    exact ih hnd' hpar' (mergeTransform x.1 x.2.parent bm)
  | swap x y l =>
    intro bm
    have hxy : y.1 ≠ x.1 := by
      simp only [keysOf, List.map_cons, List.nodup_cons, List.mem_cons] at hnd
      intro hc
      exact hnd.1 (Or.inl hc)
    have hpy : y.2.parent ≠ x.1 := by
      intro hc
      refine hpar y (List.mem_cons_self y _) ?_
      simp only [keysOf, List.map_cons]
      rw [hc]
      exact List.mem_cons_of_mem y.1 (List.mem_cons_self x.1 _)
    have hpx : x.2.parent ≠ y.1 := by
      intro hc
      refine hpar x (List.mem_cons_of_mem y (List.mem_cons_self x _)) ?_
      simp only [keysOf, List.map_cons]
      rw [hc]
      exact List.mem_cons_self y.1 _
    show processMerged l
        (mergeTransform x.1 x.2.parent (mergeTransform y.1 y.2.parent bm))
      = processMerged l
        (mergeTransform y.1 y.2.parent (mergeTransform x.1 x.2.parent bm))
    rw [mergeTransform_comm y.1 y.2.parent x.1 x.2.parent hxy hpy hpx bm]
  | trans h1 h2 ih1 ih2 =>
    intro bm
    rename_i l1 l2 l3
    have hk : List.Perm (keysOf l1) (keysOf l2) := h1.map Prod.fst
    have hnd2 : (keysOf l2).Nodup := hk.nodup_iff.mp hnd
    have hpar2 : ∀ e ∈ l2, e.2.parent ∉ keysOf l2 := by
      intro e he hc
      exact hpar e (h1.mem_iff.mpr he) (hk.mem_iff.mpr hc)
    rw [ih1 hnd hpar bm, ih2 hnd2 hpar2 bm]

/-- Witness for `processMerged_perm`: two orders of the merged set
`{a, b}` whose captured parents (`main`, `x`) are outside the set. -/
theorem processMerged_perm_witness :
    List.Perm
        [("a", (⟨"main", none, none⟩ : Branch)), ("b", ⟨"x", none, none⟩)]
        [("b", (⟨"x", none, none⟩ : Branch)), ("a", ⟨"main", none, none⟩)]
    ∧ (keysOf [("a", (⟨"main", none, none⟩ : Branch)),
        ("b", ⟨"x", none, none⟩)]).Nodup
    ∧ processMerged
        [("a", (⟨"main", none, none⟩ : Branch)), ("b", ⟨"x", none, none⟩)]
        [("c", ⟨"a", some ["a", "b"], none⟩)]
      = processMerged
        [("b", (⟨"x", none, none⟩ : Branch)), ("a", ⟨"main", none, none⟩)]
        [("c", ⟨"a", some ["a", "b"], none⟩)] := by
  refine ⟨List.Perm.swap _ _ _, by decide, ?_⟩
  exact processMerged_perm _ _ (List.Perm.swap _ _ _) (by decide)
    (by decide) _

theorem rebaseWalk_done_conflicts (bm : BMap)
    (rm : String → Option ReadinessInfo) (ub : String → Bool)
    (ro : String → String → RebaseRes) :
    ∀ (topo : List String) (acc pa : PhaseAcc),
      rebaseWalk bm rm ub ro topo acc = .done pa →
      pa.conflicts = acc.conflicts
  | [], acc, pa, h => by
    rw [rebaseWalk] at h
    cases h
    rfl
  | name :: rest, acc, pa, h => by
    rw [rebaseWalk] at h
    by_cases hr : ((rm name).getD ⟨"", false, []⟩).ready = true
    · rw [if_pos hr] at h
      cases hro : ro (((lookupB bm name).getD ⟨"", none, none⟩).parent) name
        with
      | conflict => rw [hro] at h; cases h
      | fail => rw [hro] at h; cases h
      | ok =>
        rw [hro] at h
        have h2 := rebaseWalk_done_conflicts bm rm ub ro rest _ pa h
        exact h2
    · rw [if_neg hr] at h
      have h2 := rebaseWalk_done_conflicts bm rm ub ro rest _ pa h
      exact h2

theorem rebaseWalk_conflict (bm : BMap)
    (rm : String → Option ReadinessInfo) (ub : String → Bool)
    (ro : String → String → RebaseRes) :
    ∀ (topo : List String) (acc pa : PhaseAcc) (c : String),
      rebaseWalk bm rm ub ro topo acc = .conflicted pa c →
      pa.conflicts = acc.conflicts ++ [c]
      ∧ ∃ pre suf, topo = pre ++ c :: suf
          ∧ (∀ n ∈ pa.rebased, n ∈ acc.rebased ∨ n ∈ pre)
          ∧ ((rm c).getD ⟨"", false, []⟩).ready = true
          ∧ ro (((lookupB bm c).getD ⟨"", none, none⟩).parent) c
              = RebaseRes.conflict
  | [], acc, pa, c, h => by
    rw [rebaseWalk] at h
    cases h
  | name :: rest, acc, pa, c, h => by
    rw [rebaseWalk] at h
    by_cases hr : ((rm name).getD ⟨"", false, []⟩).ready = true
    · rw [if_pos hr] at h
      cases hro : ro (((lookupB bm name).getD ⟨"", none, none⟩).parent) name
        with
      | conflict =>
        rw [hro] at h
        cases h
        refine ⟨rfl, [], rest, rfl, ?_, hr, hro⟩
        intro n hn
        exact Or.inl hn
      | fail => rw [hro] at h; cases h
      | ok =>
        rw [hro] at h
        obtain ⟨hconf, pre, suf, htopo, hreb, hready, hro2⟩ :=
          rebaseWalk_conflict bm rm ub ro rest _ pa c h
        refine ⟨hconf, name :: pre, suf, by rw [htopo]; rfl, ?_, hready, hro2⟩
        intro n hn
        rcases hreb n hn with hn2 | hn2
        · rcases List.mem_append.mp hn2 with hn3 | hn3
          · exact Or.inl hn3
          · exact Or.inr (List.mem_cons.mpr
              (Or.inl (List.mem_singleton.mp hn3)))
        · exact Or.inr (List.mem_cons_of_mem name hn2)
    · rw [if_neg hr] at h
      obtain ⟨hconf, pre, suf, htopo, hreb, hready, hro2⟩ :=
        rebaseWalk_conflict bm rm ub ro rest _ pa c h
      refine ⟨hconf, name :: pre, suf, by rw [htopo]; rfl, ?_, hready, hro2⟩
      intro n hn
      rcases hreb n hn with hn2 | hn2
      · exact Or.inl hn2
      · exact Or.inr (List.mem_cons_of_mem name hn2)

theorem runSync_branches (st : BMap) (order : List (String × Branch))
    (prView : Int → Option String) (ro : String → String → RebaseRes) :
    (runSync st order prView ro).branches = syncBranches st order prView := by
  simp only [runSync, syncBranches]
  by_cases he : st.isEmpty = true
  · rw [if_pos he, if_pos he]
  · rw [if_neg he, if_neg he]
    split
    · rfl
    · split <;> rfl

/-- **C5.** A rebase conflict stops the walk: the conflicting branch is
the only name recorded in `conflicts`, it is ready and its rebase call
returned the conflict signal, every rebased branch lies strictly before
it in the topological order (so no later branch is rebased); the final
branches map is independent of the rebase oracle (state entries are
written before the rebase phase and never modified by it); and whenever
sync reports a non-empty conflict list it terminates with the
distinguished conflict exit (process code 2), distinct from the generic
error code 1 and from success 0. -/
theorem sync_conflict_spec :
    (∀ (bm : BMap) (rm : String → Option ReadinessInfo)
        (ub : String → Bool) (ro : String → String → RebaseRes)
        (topo : List String) (pa : PhaseAcc) (c : String),
        rebaseWalk bm rm ub ro topo ⟨[], [], [], []⟩
            = PhaseOut.conflicted pa c →
        pa.conflicts = [c]
        ∧ ∃ pre suf, topo = pre ++ c :: suf
            ∧ (∀ n ∈ pa.rebased, n ∈ pre)
            ∧ ((rm c).getD ⟨"", false, []⟩).ready = true
            ∧ ro (((lookupB bm c).getD ⟨"", none, none⟩).parent) c
                = RebaseRes.conflict)
    ∧ (∀ (st : BMap) (order : List (String × Branch))
        (prView : Int → Option String)
        (ro1 ro2 : String → String → RebaseRes),
        (runSync st order prView ro1).branches
          = (runSync st order prView ro2).branches)
    ∧ (∀ (st : BMap) (order : List (String × Branch))
        (prView : Int → Option String) (ro : String → String → RebaseRes),
        (runSync st order prView ro).result.conflicts ≠ [] →
        (runSync st order prView ro).exit = SyncExit.conflictExit
          ∧ exitCode (runSync st order prView ro).exit = 2)
    ∧ exitCode SyncExit.genericError = 1
    ∧ exitCode SyncExit.ok = 0
    ∧ exitCode SyncExit.conflictExit ≠ exitCode SyncExit.genericError := by
  refine ⟨?_, ?_, ?_, rfl, rfl, by decide⟩
  · intro bm rm ub ro topo pa c h
    obtain ⟨hconf, pre, suf, htopo, hreb, hready, hro2⟩ :=
      rebaseWalk_conflict bm rm ub ro topo ⟨[], [], [], []⟩ pa c h
    refine ⟨hconf, pre, suf, htopo, ?_, hready, hro2⟩
    intro n hn
    rcases hreb n hn with hn2 | hn2
    · exact absurd hn2 (List.not_mem_nil n)
    · exact hn2
  · intro st order prView ro1 ro2
    rw [runSync_branches, runSync_branches]
  · intro st order prView ro
    simp only [runSync]
    by_cases he : st.isEmpty = true
    · rw [if_pos he]
      intro h
      exact absurd rfl h
    · rw [if_neg he]
      split
      · intro h
        exact absurd rfl h
      · split
        · intro h
          exact absurd rfl h
        · rename_i pa heq
          intro h
          have hc := rebaseWalk_done_conflicts _ _ _ _ _ _ _ heq
          exact absurd hc h
        · intro _
          exact ⟨rfl, rfl⟩

/-- Witness for `sync_conflict_spec`: a single tracked branch whose
rebase conflicts yields a non-empty conflict list, the conflict exit
and process code 2. -/
theorem sync_conflict_spec_witness :
    (runSync [("a", ⟨"main", none, none⟩)] [("a", ⟨"main", none, none⟩)]
          (fun _ => some "OPEN") (fun _ _ => RebaseRes.conflict)).result.conflicts
        ≠ []
    ∧ (runSync [("a", ⟨"main", none, none⟩)] [("a", ⟨"main", none, none⟩)]
          (fun _ => some "OPEN") (fun _ _ => RebaseRes.conflict)).exit
        = SyncExit.conflictExit
    ∧ exitCode (runSync [("a", ⟨"main", none, none⟩)]
          [("a", ⟨"main", none, none⟩)] (fun _ => some "OPEN")
          (fun _ _ => RebaseRes.conflict)).exit = 2 :=
  ⟨by decide,
    sync_conflict_spec.2.2.1 [("a", ⟨"main", none, none⟩)]
      [("a", ⟨"main", none, none⟩)] (fun _ => some "OPEN")
      (fun _ _ => RebaseRes.conflict) (by decide)⟩

/-- **C9 counterexample.** Merge detection iterates the Go branches map
with `range` (cmd/sync.go step 4), whose order is unspecified: with
branches `{a: {parent: main, pr: 10}, b: {parent: main, pr: 20}}`, both
PRs merged, iteration order `a, b` reports `merged = [a, b]` while
order `b, a` reports `merged = [b, a]` — two runs on the same state
document with the same collaborator responses can differ in output,
contradicting the claim that *every* iteration is over sorted keys. -/
theorem sync_order_counterexample :
    (runSync
        [("a", ⟨"main", none, some 10⟩), ("b", ⟨"main", none, some 20⟩)]
        [("a", ⟨"main", none, some 10⟩), ("b", ⟨"main", none, some 20⟩)]
        (fun _ => some "MERGED") (fun _ _ => .ok)).result.merged = ["a", "b"]
    ∧ (runSync
        [("a", ⟨"main", none, some 10⟩), ("b", ⟨"main", none, some 20⟩)]
        [("b", ⟨"main", none, some 20⟩), ("a", ⟨"main", none, some 10⟩)]
        (fun _ => some "MERGED") (fun _ _ => .ok)).result.merged
      = ["b", "a"] :=
  ⟨by decide, by decide⟩

/-- **C9 (amended).** The graph-engine iterations are sorted as
claimed: the topological sort's initial ready queue, the dependent list
of every dequeued node, and the readiness listing are all in
lexicographic (byte-wise) name order.  Merge detection, however, walks
the Go map in unspecified order; what holds is stability up to
permutation: permuting the iteration order permutes the detected
merged set (same set, possibly different sequence). -/
theorem sync_determinism_spec :
    (∀ bs : DMap, (seedQueue bs).Sorted (fun x y => strLe x y = true))
    ∧ (∀ (bs : DMap) (dep : String),
        (sortedDependents bs dep).Sorted (fun x y => strLe x y = true))
    ∧ (∀ bs : DMap,
        ((ComputeReadiness bs).map (fun ri => ri.name)).Sorted
          (fun x y => strLe x y = true))
    ∧ (∀ (order1 order2 : List (String × Branch))
        (prView : Int → Option String), List.Perm order1 order2 →
        List.Perm (detectMerged order1 prView)
          (detectMerged order2 prView)) := by
  refine ⟨?_, ?_, ?_, ?_⟩
  · intro bs
    exact sortStrs_sorted _
  · intro bs dep
    exact sortStrs_sorted _
  · intro bs
    have hname : (ComputeReadiness bs).map (fun ri => ri.name)
        = sortStrs (keysOf bs) := by
      rw [ComputeReadiness, List.map_map]
      generalize sortStrs (keysOf bs) = l
      induction l with
      | nil => rfl
      | cons a t ih => simpa using ih
    rw [hname]
    exact sortStrs_sorted _
  · intro order1 order2 prView h
    exact h.filter _

/-- Witness for `sync_determinism_spec`: a two-entry swap of the
iteration order permutes the detected merged set. -/
theorem sync_determinism_spec_witness :
    List.Perm
        [("b", (⟨"main", none, some 20⟩ : Branch)),
          ("a", ⟨"main", none, some 10⟩)]
        [("a", (⟨"main", none, some 10⟩ : Branch)),
          ("b", ⟨"main", none, some 20⟩)]
    ∧ List.Perm
        (detectMerged
          [("b", ⟨"main", none, some 20⟩), ("a", ⟨"main", none, some 10⟩)]
          (fun _ => some "MERGED"))
        (detectMerged
          [("a", ⟨"main", none, some 10⟩), ("b", ⟨"main", none, some 20⟩)]
          (fun _ => some "MERGED")) :=
  ⟨List.Perm.swap _ _ _,
    sync_determinism_spec.2.2.2 _ _ (fun _ => some "MERGED")
      (List.Perm.swap _ _ _)⟩

/-- **C10.** Pruning the last remaining after entry yields different
empty representations: sync's `removeFromSlice` (used by merge
processing) returns a nil slice, persisted as JSON null, while
untrack's rebuild loop assigns a freshly allocated non-nil empty
slice, persisted as JSON `[]`. -/
theorem prune_empty_representation :
    (∀ (b : Branch) (m : String) (l : List String),
        b.after = some l → l ≠ [] → l.filter (fun v => v ≠ m) = [] →
        (pruneVal m b).after = none
          ∧ ∀ rp, (untrackEntryUpdate m rp b).after = some [])
    ∧ afterJSON none = "null"
    ∧ afterJSON (some []) = "[]" := by
  refine ⟨?_, rfl, rfl⟩
  intro b m l hafter hne hf
  have hmem : m ∈ l := by
    cases l with
    | nil => exact absurd rfl hne
    | cons a t =>
      by_cases ha : a = m
      · rw [ha]
        exact List.mem_cons_self m t
      · exfalso
        have : a :: t.filter (fun v => v ≠ m)
            = (a :: t).filter (fun v => v ≠ m) := by
          simp [List.filter_cons, ha]
        rw [hf] at this
        exact List.cons_ne_nil _ _ this
  have hwas : l.any (fun dep => dep = m) = true :=
    List.any_eq_true.mpr ⟨m, hmem, by simp⟩
  constructor
  · show removeFromSlice b.after m = none
    rw [hafter]
    simp only [removeFromSlice, Option.getD_some]
    rw [if_pos hf]
  · intro rp
    simp only [untrackEntryUpdate, hafter, Option.getD_some, hwas,
      if_true, hf]
    by_cases hp : b.parent = m
    · simp [hp]
    · simp [hp]

/-- Witness for `prune_empty_representation`: branch with
`after = [m]`; removing `m` gives nil under sync's prune and the empty
slice under untrack's. -/
theorem prune_empty_representation_witness :
    ((⟨"p", some ["m"], none⟩ : Branch).after = some ["m"])
    ∧ (["m"] ≠ [])
    ∧ (["m"].filter (fun v => v ≠ "m") = [])
    ∧ (pruneVal "m" ⟨"p", some ["m"], none⟩).after = none
    ∧ (untrackEntryUpdate "m" "trunk"
        ⟨"p", some ["m"], none⟩).after = some [] := by
  have h := prune_empty_representation.1 ⟨"p", some ["m"], none⟩ "m" ["m"]
    rfl (by decide) (by decide)
  exact ⟨rfl, by decide, by decide, h.1, h.2 "trunk"⟩

/-- **C8.** Lock discipline: whenever acquisition succeeds the lockfile
records the caller and running the returned unlock removes it (acquire
then release leaves no marker); acquisition against a fresh marker
(age within the 5-minute threshold) written by a live process is a
hard held-by-another error leaving the marker alone; against a stale
marker (over the threshold, or recorded pid not alive) the marker is
removed and acquisition retried exactly once — succeeding when nobody
recreated the file, and failing hard when an interferer did. -/
theorem lock_spec :
    (∀ (alive : Nat → Bool) (self : Nat) (adv : Option LockMarker)
        (fs fs2 : LockFS), Lock alive self adv fs = Except.ok fs2 →
        fs2.marker = some ⟨0, self⟩ ∧ (unlockFS fs2).marker = none)
    ∧ (∀ (alive : Nat → Bool) (self : Nat) (fs : LockFS),
        fs.marker = none →
        Lock alive self none fs = Except.ok ⟨some ⟨0, self⟩⟩)
    ∧ (∀ (alive : Nat → Bool) (self : Nat) (adv : Option LockMarker)
        (mk : LockMarker), mk.age ≤ lockStaleDuration →
        lockPIDAlive alive (some mk) = true →
        Lock alive self adv ⟨some mk⟩ = Except.error LockErr.held)
    ∧ (∀ (alive : Nat → Bool) (self : Nat) (mk : LockMarker),
        lockStaleDuration < mk.age ∨ lockPIDAlive alive (some mk) = false →
        Lock alive self none ⟨some mk⟩ = Except.ok ⟨some ⟨0, self⟩⟩)
    ∧ (∀ (alive : Nat → Bool) (self : Nat) (mk mk2 : LockMarker),
        lockStaleDuration < mk.age ∨ lockPIDAlive alive (some mk) = false →
        Lock alive self (some mk2) ⟨some mk⟩
          = Except.error LockErr.retryFailed) := by
  refine ⟨?_, ?_, ?_, ?_, ?_⟩
  · intro alive self adv fs fs2 h
    cases hm : fs.marker with
    | none =>
      simp only [Lock, tryLock, hm] at h
      cases h
      exact ⟨rfl, rfl⟩
    | some mk =>
      simp only [Lock, tryLock, hm] at h
      by_cases hs : lockStaleDuration < mk.age
          ∨ lockPIDAlive alive (some mk) = false
      · rw [if_pos hs] at h
        cases adv with
        | none =>
          simp only [] at h
          cases h
          exact ⟨rfl, rfl⟩
        | some mk2 => simp at h
      · rw [if_neg hs] at h
        cases h
  · intro alive self fs h
    simp [Lock, tryLock, h]
  · intro alive self adv mk hage halive
    have hns : ¬(lockStaleDuration < mk.age
        ∨ lockPIDAlive alive (some mk) = false) := by
      rintro (h1 | h1)
      · omega
      · rw [halive] at h1
        cases h1
    simp only [Lock, tryLock]
    rw [if_neg hns]
    rfl
  · intro alive self mk hs
    simp only [Lock, tryLock]
    rw [if_pos hs]
    rfl
  · intro alive self mk mk2 hs
    simp only [Lock, tryLock]
    rw [if_pos hs]
    rfl

/-- Witness for `lock_spec`: a marker aged 400 s (over the 300 s
threshold) is stale; with no interference the retry acquires the lock
for pid 7. -/
theorem lock_spec_witness :
    (lockStaleDuration < (⟨400, 9⟩ : LockMarker).age
      ∨ lockPIDAlive (fun p => decide (p = 7)) (some ⟨400, 9⟩) = false)
    ∧ Lock (fun p => decide (p = 7)) 7 none ⟨some ⟨400, 9⟩⟩
        = Except.ok ⟨some ⟨0, 7⟩⟩ :=
  ⟨Or.inl (by decide),
    lock_spec.2.2.2.1 (fun p => decide (p = 7)) 7 ⟨400, 9⟩
      (Or.inl (by decide))⟩

end Frond
